import Mathlib

/-!
Shallow embedding of `src/utils/tree-data-utils.js` from react-sortable-tree.

Modelling conventions:
* A JS tree node is `Node`: an opaque payload (modelled as a `Nat`), the
  tri-state `expanded` field (`Option Bool`: absent / false / true) and the
  `children` field (`Option (List Node)`: absent / an array).  The "lazily
  producible children" marker (`typeof node.children === 'function'`) is
  outside the model; every traversal either crashes or degenerates on it.
* The caller-supplied key function and the node-producer callback may be
  arbitrary JS closures, so they are embedded in state-passing style:
  `σ → Node → Int → σ × κ`.  A pure key function is the special case that
  ignores and preserves the state.
* JS `throw` is an `Except.error`; tree indices are `Int` because the
  traversals start from the pseudo-root at index `-1`.
-/

set_option maxHeartbeats 1000000

inductive Node : Type where
  | mk (payload : Nat) (expanded : Option Bool) (children : Option (List Node))
deriving Repr

def Node.payload : Node → Nat
  | .mk p _ _ => p

def Node.expanded : Node → Option Bool
  | .mk _ e _ => e

def Node.children : Node → Option (List Node)
  | .mk _ _ c => c

/-- JS object spread `{...node, children: cs}`. -/
def Node.withChildren : Node → List Node → Node
  | .mk p e _, cs => .mk p e (some cs)

/-- JS array read `path[i]` (negative or out-of-range index gives `undefined`). -/
def jsElem {κ : Type} (l : List κ) (i : Int) : Option κ :=
  if i < 0 then none else l.get? i.toNat

/- ### getVisibleNodeCount (source lines 120-130) -/

mutual
/-- The inner `traverse` of `getVisibleNodeCount`: a node contributes 1, plus
its children's contributions when it has a children array and `expanded === true`. -/
def countTraverse : Node → Nat
  | .mk _ _ none => 1
  | .mk _ e (some cs) => if e = some true then 1 + countTraverseList cs else 1

def countTraverseList : List Node → Nat
  | [] => 0
  | n :: rest => countTraverse n + countTraverseList rest
end


/-- `getVisibleNodeCount({treeData})`: `treeData.reduce((total, n) => total + traverse(n), 0)`. -/
def getVisibleNodeCount (treeData : List Node) : Nat :=
  treeData.foldl (fun total n => total + countTraverse n) 0

/- ### getNodeDataAtTreeIndexOrNextIndex (source lines 5-55) -/

/-- The record `{node, lowerSiblingCounts, path}` returned on a hit by
`getNodeDataAtTreeIndexOrNextIndex` / `getVisibleNodeInfoAtIndex`, and stored
per slot by `getVisibleNodeInfoFlattened`. -/
structure NodeInfo (κ : Type) where
  node : Node
  lowerSiblingCounts : List Nat
  path : List κ
deriving Repr

/-- Result of `getNodeDataAtTreeIndexOrNextIndex`: either the target record or
`{nextIndex}`. -/
inductive GRes (κ : Type) where
  | found (info : NodeInfo κ)
  | next (nextIndex : Int)
deriving Repr

/-- JS `result.nextIndex` as read by `changeNodeAtPath` (reading it off a hit
result would give `undefined`; that situation is unreachable because the target
index `-1` is below every child index, and is mapped to `0` here). -/
def GRes.nextIdxD {κ : Type} : GRes κ → Int
  | .next j => j
  | .found _ => 0

mutual
/-- `getNodeDataAtTreeIndexOrNextIndex` (source lines 5-55).  The key function
is state-threaded; note that the source computes `selfPath` — and hence calls
`getNodeKey` — before the `currentIndex === targetIndex` check, and that the
recursive call for children does not pass `ignoreCollapsed`, so children are
always traversed with the default `ignoreCollapsed = true`. -/
def getNodeDataAtTreeIndexOrNextIndex {σ κ : Type}
    (getNodeKey : σ → Node → Int → σ × κ) (node : Node)
    (currentIndex targetIndex : Int) (path : List κ)
    (lowerSiblingCounts : List Nat) (ignoreCollapsed isPseudoRoot : Bool)
    (s : σ) : σ × GRes κ :=
  let sp : σ × List κ :=
    if isPseudoRoot then (s, [])
    else
      let r := getNodeKey s node currentIndex
      (r.1, path ++ [r.2])
  if currentIndex = targetIndex then
    (sp.1, .found ⟨node, lowerSiblingCounts, sp.2⟩)
  else
    match node with
    | .mk _ _ none => (sp.1, .next (currentIndex + 1))
    | .mk _ e (some cs) =>
      if ignoreCollapsed ∧ e ≠ some true then
        (sp.1, .next (currentIndex + 1))
      else
        gndChildren getNodeKey cs (currentIndex + 1) targetIndex sp.2
          lowerSiblingCounts sp.1

/-- The `for` loop of `getNodeDataAtTreeIndexOrNextIndex` over the children
array; the `lowerSiblingCounts` entry `childCount - i - 1` is the length of
the remaining suffix. -/
def gndChildren {σ κ : Type} (getNodeKey : σ → Node → Int → σ × κ)
    (cs : List Node) (childIndex targetIndex : Int) (selfPath : List κ)
    (lowerSiblingCounts : List Nat) (s : σ) : σ × GRes κ :=
  match cs with
  | [] => (s, .next childIndex)
  | c0 :: rest =>
    match getNodeDataAtTreeIndexOrNextIndex getNodeKey c0 childIndex
        targetIndex selfPath (lowerSiblingCounts ++ [rest.length]) true false s with
    | (s', .found info) => (s', .found info)
    | (s', .next j) => gndChildren getNodeKey rest j targetIndex selfPath lowerSiblingCounts s'
end


/- ### walkDescendants (source lines 60-111) and walk (lines 179-194) -/

/-- The record `{node, path, lowerSiblingCounts, treeIndex}` handed to the
`walkDescendants` callback. -/
structure WalkInfo (κ : Type) where
  node : Node
  path : List κ
  lowerSiblingCounts : List Nat
  treeIndex : Int
deriving Repr

mutual
/-- `walkDescendants` (source lines 60-111).  The callback is state-threaded;
its `Bool` result is `false` exactly when the JS callback returned `=== false`.
The walk returns `none` for an aborted walk (JS `false`) and `some i` for the
last consumed index otherwise.  The `typeof node.children === 'function'`
check is outside the model (no lazy children). -/
def walkDescendants {σ κ : Type} (getNodeKey : σ → Node → Int → σ × κ)
    (callback : σ → WalkInfo κ → σ × Bool) (ignoreCollapsed isPseudoRoot : Bool)
    (node : Node) (currentIndex : Int) (path : List κ)
    (lowerSiblingCounts : List Nat) (s : σ) : σ × Option Int :=
  let sp : σ × List κ :=
    if isPseudoRoot then (s, [])
    else
      let r := getNodeKey s node currentIndex
      (r.1, path ++ [r.2])
  let cb : σ × Bool :=
    if isPseudoRoot then (sp.1, true)
    else callback sp.1 ⟨node, sp.2, lowerSiblingCounts, currentIndex⟩
  if cb.2 = false then (cb.1, none)
  else
    match node with
    | .mk _ _ none => (cb.1, some currentIndex)
    | .mk _ e (some cs) =>
      if e ≠ some true ∧ ignoreCollapsed ∧ ¬isPseudoRoot then
        (cb.1, some currentIndex)
      else
        walkChildren getNodeKey callback ignoreCollapsed cs currentIndex sp.2
          lowerSiblingCounts cb.1

/-- The `for` loop of `walkDescendants` over the children array. -/
def walkChildren {σ κ : Type} (getNodeKey : σ → Node → Int → σ × κ)
    (callback : σ → WalkInfo κ → σ × Bool) (ignoreCollapsed : Bool)
    (cs : List Node) (childIndex : Int) (selfPath : List κ)
    (lowerSiblingCounts : List Nat) (s : σ) : σ × Option Int :=
  match cs with
  | [] => (s, some childIndex)
  | c0 :: rest =>
    match walkDescendants getNodeKey callback ignoreCollapsed false c0
        (childIndex + 1) selfPath (lowerSiblingCounts ++ [rest.length]) s with
    | (s', none) => (s', none)
    | (s', some j) => walkChildren getNodeKey callback ignoreCollapsed rest j
        selfPath lowerSiblingCounts s'
end


/-- Result of `walk` (source lines 179-194): JS `undefined` on an empty tree,
otherwise the `walkDescendants` result (`false` or an index). -/
inductive WalkRet where
  | undef
  | stopped
  | idx (i : Int)
deriving Repr, DecidableEq

/-- `walk({treeData, getNodeKey, callback, ignoreCollapsed})` (source lines
179-194).  The pseudo-root is `{children: treeData}` (no `expanded` field). -/
def walk {σ κ : Type} (getNodeKey : σ → Node → Int → σ × κ)
    (callback : σ → WalkInfo κ → σ × Bool) (ignoreCollapsed : Bool)
    (treeData : List Node) (s : σ) : σ × WalkRet :=
  if treeData.length < 1 then (s, .undef)
  else
    match walkDescendants getNodeKey callback ignoreCollapsed true
        (Node.mk 0 none (some treeData)) (-1) [] [] s with
    | (s', none) => (s', .stopped)
    | (s', some j) => (s', .idx j)

/- ### getVisibleNodeInfoAtIndex (source lines 145-169) -/

/-- `getVisibleNodeInfoAtIndex({treeData, index, getNodeKey})` (source lines
145-169).  The pseudo-root is `{children: treeData, expanded: true}` and the
walk starts at index `-1`. -/
def getVisibleNodeInfoAtIndex {σ κ : Type} (getNodeKey : σ → Node → Int → σ × κ)
    (treeData : List Node) (targetIndex : Int) (s : σ) : σ × Option (NodeInfo κ) :=
  if treeData.length < 1 then (s, none)
  else
    match getNodeDataAtTreeIndexOrNextIndex getNodeKey
        (Node.mk 0 (some true) (some treeData)) (-1) targetIndex [] [] true true s with
    | (s', .found info) => (s', some info)
    | (s', .next _) => (s', none)

/- ### getVisibleNodeInfoFlattened (source lines 208-224) -/

/-- JS sparse-array write `arr[i] = v` as used by the flattening callback:
a negative index leaves the array contents untouched (it sets a non-element
property), a past-the-end index pads with holes (`none`). -/
def jsSetElem {α : Type} (l : List (Option α)) (i : Int) (v : α) : List (Option α) :=
  if i < 0 then l
  else
    let n := i.toNat
    if n < l.length then l.set n (some v)
    else l ++ List.replicate (n - l.length) none ++ [some v]

/-- `getVisibleNodeInfoFlattened({treeData, getNodeKey})` (source lines
208-224), for a pure key function: a `walk` with `ignoreCollapsed: true` whose
callback stores `{node, lowerSiblingCounts, path}` at slot `treeIndex`. -/
def getVisibleNodeInfoFlattened {κ : Type} (f : Node → Int → κ)
    (treeData : List Node) : List (Option (NodeInfo κ)) :=
  if treeData.length < 1 then []
  else
    (walk (fun s n i => (s, f n i))
      (fun s info => (jsSetElem s info.treeIndex ⟨info.node, info.lowerSiblingCounts, info.path⟩, true))
      true treeData []).1

/- ### changeNodeAtPath (source lines 237-316) and removeNodeAtPath (329-337) -/

/-- The values the `newNode` producer can return in the modelled fragment:
a real node object, JS `null` (falsy: deletion), or the exact string
`'RESULT_MISS'` (which collides with the internal sentinel).  Other JS values
(non-empty strings, numbers, ...) are outside the model: the source would
splice them into a children array as non-node elements. -/
inductive ProducerVal where
  | pnode (n : Node)
  | pnull
  | pmiss
deriving Repr

/-- The `newNode` argument of `changeNodeAtPath`: a plain value or a (state
threaded) producer function, mirroring the `typeof newNode === 'function'`
dispatch. -/
inductive NewNodeArg (σ : Type) where
  | value (v : ProducerVal)
  | fn (f : σ → Node → Int → σ × ProducerVal)

/-- `typeof newNode === 'function' ? newNode({node, treeIndex}) : newNode`. -/
def applyNewNode {σ : Type} : NewNodeArg σ → σ → Node → Int → σ × ProducerVal
  | .value v, s, _, _ => (s, v)
  | .fn f, s, n, i => f s n i

/-- What the inner `traverse` of `changeNodeAtPath` returns: the sentinel
string `'RESULT_MISS'`, a truthy node object, or a falsy value (deletion
marker).  A producer returning the string `'RESULT_MISS'` is indistinguishable
from the sentinel, hence `travOfProd .pmiss = .missR`. -/
inductive TravResult where
  | missR
  | nodeR (n : Node)
  | falsyR
deriving Repr

def travOfProd : ProducerVal → TravResult
  | .pnode n => .nodeR n
  | .pnull => .falsyR
  | .pmiss => .missR

/-- The two `throw`s of `changeNodeAtPath`, plus the JS `TypeError` that
`return result.children` raises when `result` is `null` (only reachable with
an empty path and a falsy `newNode`). -/
inductive ChangeError where
  | noNode
  | childless
  | typeErr
deriving Repr, DecidableEq

mutual
/-- The inner `traverse` of `changeNodeAtPath` (source lines 239-301).  The
key comparison `getNodeKey(...) !== path[pathIndex]` happens before the
terminal-position check; out-of-range `path[pathIndex]` is JS `undefined`
(`jsElem` gives `none`), which never equals a key. -/
def chTraverse {σ κ : Type} [DecidableEq κ] (getNodeKey : σ → Node → Int → σ × κ)
    (newNode : NewNodeArg σ) (path : List κ) (ignoreCollapsed isPseudoRoot : Bool)
    (node : Node) (currentTreeIndex pathIndex : Int) (s : σ) :
    σ × Except ChangeError TravResult :=
  let kc : σ × Bool :=
    if isPseudoRoot then (s, true)
    else
      let r := getNodeKey s node currentTreeIndex
      (r.1, decide (jsElem path pathIndex = some r.2))
  if kc.2 = false then (kc.1, .ok .missR)
  else if pathIndex ≥ (path.length : Int) - 1 then
    let r := applyNewNode newNode kc.1 node currentTreeIndex
    (r.1, .ok (travOfProd r.2))
  else
    match node with
    | .mk _ _ none => (kc.1, .error .childless)
    | .mk _ _ (some cs) =>
      chChildren getNodeKey newNode path ignoreCollapsed node 0 cs cs
        (currentTreeIndex + 1) pathIndex kc.1

/-- The `for` loop of `traverse` (source lines 258-298): `i` is the absolute
position, `remaining = csAll.drop i`; on a non-miss result the parent is
rebuilt as `{...node, children: splice}`, on a miss the running index is
advanced by the `getNodeDataAtTreeIndexOrNextIndex` next-index fallthrough
(which calls `getNodeKey` again on the rejected child). -/
def chChildren {σ κ : Type} [DecidableEq κ] (getNodeKey : σ → Node → Int → σ × κ)
    (newNode : NewNodeArg σ) (path : List κ) (ignoreCollapsed : Bool)
    (node : Node) (i : Nat) (csAll remaining : List Node)
    (nextTreeIndex pathIndex : Int) (s : σ) : σ × Except ChangeError TravResult :=
  match remaining with
  | [] => (s, .ok .missR)
  | c0 :: rest =>
    match chTraverse getNodeKey newNode path ignoreCollapsed false c0
        nextTreeIndex (pathIndex + 1) s with
    | (s', .error e) => (s', .error e)
    | (s', .ok (.nodeR nd)) => (s', .ok (.nodeR (node.withChildren (csAll.set i nd))))
    | (s', .ok .falsyR) => (s', .ok (.nodeR (node.withChildren (csAll.eraseIdx i))))
    | (s', .ok .missR) =>
      let g := getNodeDataAtTreeIndexOrNextIndex getNodeKey c0 nextTreeIndex
        (-1) [] [] ignoreCollapsed false s'
      chChildren getNodeKey newNode path ignoreCollapsed node (i + 1) csAll rest
        g.2.nextIdxD pathIndex g.1
end


/-- `changeNodeAtPath({treeData, path, newNode, getNodeKey, ignoreCollapsed})`
(source lines 237-316).  The starting pseudo-root is `{children: treeData}`
at `currentTreeIndex = -1`, `pathIndex = -1`; a `RESULT_MISS` overall result
throws `'No node found at the given path.'`, otherwise `result.children` is
returned (reading `.children` off `null` is the JS `TypeError`, `.typeErr`). -/
def changeNodeAtPath {σ κ : Type} [DecidableEq κ] (getNodeKey : σ → Node → Int → σ × κ)
    (newNode : NewNodeArg σ) (treeData : List Node) (path : List κ)
    (ignoreCollapsed : Bool) (s : σ) : σ × Except ChangeError (Option (List Node)) :=
  match chTraverse getNodeKey newNode path ignoreCollapsed true
      (Node.mk 0 none (some treeData)) (-1) (-1) s with
  | (s', .error e) => (s', .error e)
  | (s', .ok .missR) => (s', .error .noNode)
  | (s', .ok (.nodeR n)) => (s', .ok n.children)
  | (s', .ok .falsyR) => (s', .error .typeErr)

/-- `removeNodeAtPath` (source lines 329-337): `changeNodeAtPath` with
`newNode: null`. -/
def removeNodeAtPath {σ κ : Type} [DecidableEq κ] (getNodeKey : σ → Node → Int → σ × κ)
    (treeData : List Node) (path : List κ) (ignoreCollapsed : Bool) (s : σ) :
    σ × Except ChangeError (Option (List Node)) :=
  changeNodeAtPath getNodeKey (.value .pnull) treeData path ignoreCollapsed s

/- ### Pure-key convenience instantiations -/

/-- A pure key function as a state-passing one (ignores and preserves the
state). -/
def pureKey {σ κ : Type} (f : Node → Int → κ) : σ → Node → Int → σ × κ :=
  fun s n i => (s, f n i)

/-- `getVisibleNodeInfoAtIndex` with a pure key function. -/
def atIndexP {κ : Type} (f : Node → Int → κ) (treeData : List Node)
    (targetIndex : Int) : Option (NodeInfo κ) :=
  (getVisibleNodeInfoAtIndex (pureKey f) treeData targetIndex ()).2

/-- `changeNodeAtPath` with a pure key function and `ignoreCollapsed = true`
(the default). -/
def changeP {κ : Type} [DecidableEq κ] (f : Node → Int → κ)
    (newNode : NewNodeArg Unit) (treeData : List Node) (path : List κ) :
    Except ChangeError (Option (List Node)) :=
  (changeNodeAtPath (pureKey f) newNode treeData path true ()).2

/- ### Specification-side reference: the pre-order list of visible records -/

/-- Prepends accumulated path and lower-sibling-count prefixes to a record. -/
def shiftInfo {κ : Type} (p : List κ) (l : List Nat) (r : WalkInfo κ) : WalkInfo κ :=
  ⟨r.node, p ++ r.path, l ++ r.lowerSiblingCounts, r.treeIndex⟩

mutual
/-- Specification-side description (spec §3, §4.1): the records of the visible
nodes of the subtree rooted at `n`, in depth-first pre-order, when `n` itself
is visited at linear index `c` with accumulated path `p` and sibling counts
`l`.  A node's children are visible exactly when `expanded = some true`. -/
def visRecords {κ : Type} (f : Node → Int → κ) (n : Node) (c : Int)
    (p : List κ) (l : List Nat) : List (WalkInfo κ) :=
  ⟨n, p ++ [f n c], l, c⟩ :: visChildren f n c p l

/-- The visible descendants part of `visRecords`. -/
def visChildren {κ : Type} (f : Node → Int → κ) (n : Node) (c : Int)
    (p : List κ) (l : List Nat) : List (WalkInfo κ) :=
  match n with
  | .mk _ (some true) (some cs) => visRecordsList f cs (c + 1) (p ++ [f n c]) l
  | _ => []

/-- `visRecords` over a sibling list starting at linear index `c`. -/
def visRecordsList {κ : Type} (f : Node → Int → κ) (cs : List Node) (c : Int)
    (p : List κ) (l : List Nat) : List (WalkInfo κ) :=
  match cs with
  | [] => []
  | n :: rest =>
    visRecords f n c p (l ++ [rest.length]) ++
      visRecordsList f rest (c + countTraverse n) p l
end


/- ### Characterization of getVisibleNodeInfoAtIndex with a pure key -/

/-- The reference record list of a whole forest: root-level nodes start at
linear index 0 with empty accumulated path/sibling counts. -/
def forestRecords {κ : Type} (f : Node → Int → κ) (treeData : List Node) :
    List (WalkInfo κ) :=
  visRecordsList f treeData 0 [] []

/- ### Characterization of walkDescendants with a pure key -/

/-- Specification-side (spec §4.1): feed the records to the callback in order,
stopping as soon as it returns `false`; result flag is `false` iff stopped. -/
def runVisits {σ κ : Type} (callback : σ → WalkInfo κ → σ × Bool) :
    σ → List (WalkInfo κ) → σ × Bool
  | s, [] => (s, true)
  | s, r :: rs =>
    let c := callback s r
    if c.2 = false then (c.1, false) else runVisits callback c.1 rs

/- ### Early termination of the callback walk (C9) -/

/-- Specification-side visited-prefix: the records visited by a walk whose
callback may stop: each record is visited in order, and the first record on
which the callback returns `false` is the last one visited. -/
def takeUntilStop {σ κ : Type} (cb : σ → WalkInfo κ → σ × Bool) :
    σ → List (WalkInfo κ) → List (WalkInfo κ)
  | _, [] => []
  | s, r :: rs =>
    let c := cb s r
    if c.2 = false then [r] else r :: takeUntilStop cb c.1 rs

/-- The callback wrapped so that it also records each record it is invoked
on. -/
def loggingCallback {σ κ : Type} (cb : σ → WalkInfo κ → σ × Bool) :
    (σ × List (WalkInfo κ)) → WalkInfo κ → (σ × List (WalkInfo κ)) × Bool :=
  fun sl info =>
    let c := cb sl.1 info
    ((c.1, sl.2 ++ [info]), c.2)

/-- The sequence of records the `walk` callback is invoked on, observed through
the log. -/
def walkVisitLog {σ κ : Type} (f : Node → Int → κ)
    (cb : σ → WalkInfo κ → σ × Bool) (treeData : List Node) (s : σ) :
    List (WalkInfo κ) :=
  ((walk (pureKey f) (loggingCallback cb) true treeData (s, [])).1).2

/- ### Pseudo-root exclusion (C7) -/

mutual
/-- `x` is a node of the tree rooted at `n` (the node itself or any
descendant, visible or not). -/
def inTree (x : Node) : Node → Prop
  | .mk p e none => x = .mk p e none
  | .mk p e (some cs) => x = .mk p e (some cs) ∨ inForest x cs

/-- `x` is a node of one of the trees of the forest `cs`. -/
def inForest (x : Node) : List Node → Prop
  | [] => False
  | n :: rest => inTree x n ∨ inForest x rest
end

/- ### Key-function call discipline (C8) -/

/-- Specification-side: the prefix of the record list an index-seeking
traversal visits — everything up to and including the first record at the
target index (all of them when the target is absent). -/
def visitedUpTo {κ : Type} (t : Int) : List (WalkInfo κ) → List (WalkInfo κ)
  | [] => []
  | r :: rs => if r.treeIndex = t then [r] else r :: visitedUpTo t rs

/-- A key function wrapped to log every `(node, treeIndex)` argument pair it
is called on. -/
def loggingKey {κ : Type} (f : Node → Int → κ) :
    List (Node × Int) → Node → Int → List (Node × Int) × κ :=
  fun log n i => (log ++ [(n, i)], f n i)


/-- Interleaved observation of a walk: a key-function call or a callback
invocation. -/
inductive KeyEvent (κ : Type) where
  | keyCall (node : Node) (treeIndex : Int)
  | visit (info : WalkInfo κ)
deriving Repr

/-- The key function wrapped to log a `keyCall` event per invocation. -/
def keyEventKey {σ κ : Type} (f : Node → Int → κ) :
    (List (KeyEvent κ) × σ) → Node → Int → (List (KeyEvent κ) × σ) × κ :=
  fun sl n i => ((sl.1 ++ [.keyCall n i], sl.2), f n i)

/-- The callback wrapped to log a `visit` event per invocation. -/
def keyEventCallback {σ κ : Type} (cb : σ → WalkInfo κ → σ × Bool) :
    (List (KeyEvent κ) × σ) → WalkInfo κ → (List (KeyEvent κ) × σ) × Bool :=
  fun sl info =>
    let c := cb sl.2 info
    ((sl.1 ++ [.visit info], c.1), c.2)

/-- Specification-side: the expected event trace — for each record visited (up
to an early stop), exactly one key call immediately followed by its callback
invocation, with the record's node and current linear index. -/
def keyedVisits {σ κ : Type} (cb : σ → WalkInfo κ → σ × Bool) :
    σ → List (WalkInfo κ) → List (KeyEvent κ)
  | _, [] => []
  | s, r :: rs =>
    let c := cb s r
    .keyCall r.node r.treeIndex :: .visit r ::
      (if c.2 = false then [] else keyedVisits cb c.1 rs)


/-- The interleaved key-call/visit event trace of a `walk`. -/
def walkKeyEvents {σ κ : Type} (f : Node → Int → κ)
    (cb : σ → WalkInfo κ → σ × Bool) (treeData : List Node) (s : σ) :
    List (KeyEvent κ) :=
  ((walk (keyEventKey f) (keyEventCallback cb) true treeData ([], s)).1).1

/-- The key-call log of an index lookup. -/
def atIndexKeyLog {κ : Type} (f : Node → Int → κ) (treeData : List Node)
    (t : Int) : List (Node × Int) :=
  (getVisibleNodeInfoAtIndex (loggingKey f) treeData t []).1

/- ### Path-addressed mutation: specification-side lookup and rebuild -/

/-- Sibling-key uniqueness (spec §6): distinct siblings never share a key,
whatever linear indices the key function is applied at. -/
def PairwiseKeysNe {κ : Type} (f : Node → Int → κ) (cs : List Node) : Prop :=
  List.Pairwise (fun x y => ∀ a b : Int, f x a ≠ f y b) cs

mutual
/-- `KeysUniqN f n`: sibling-key uniqueness holds in every children list of
the subtree rooted at `n`. -/
def KeysUniqN {κ : Type} (f : Node → Int → κ) : Node → Prop
  | .mk _ _ none => True
  | .mk _ _ (some cs) => PairwiseKeysNe f cs ∧ KeysUniqL f cs

def KeysUniqL {κ : Type} (f : Node → Int → κ) : List Node → Prop
  | [] => True
  | n :: rest => KeysUniqN f n ∧ KeysUniqL f rest
end


/-- Sibling-key uniqueness for a whole forest, root level included. -/
def KeysUniqF {κ : Type} (f : Node → Int → κ) (treeData : List Node) : Prop :=
  PairwiseKeysNe f treeData ∧ KeysUniqL f treeData

/-- Result of the specification-side path lookup (spec §4.5): the terminal
node with its linear index and the chain of child positions leading to it,
a path that does not exist, or the structural error (path continuing past a
childless node). -/
inductive LookupRes where
  | found (m : Node) (t : Int) (ks : List Nat)
  | missing
  | structErr
deriving Repr

/-- Shift the head child position of a found result (used when skipping a
rejected sibling). -/
def LookupRes.shift : LookupRes → LookupRes
  | .found m t (p :: ks) => .found m t ((p + 1) :: ks)
  | r => r

mutual
/-- Modelled from the spec (§4.5): descend guided by the key path; `n` has
already matched its key at linear index `c` and `rest` is the remaining path
suffix. An empty suffix means `n` is the target; otherwise compare each child
in order against the next key at the child's running linear index, advancing
by the visible-subtree size on a mismatch. -/
def lookupNode {κ : Type} [DecidableEq κ] (f : Node → Int → κ) (n : Node)
    (c : Int) : List κ → LookupRes
  | [] => .found n c []
  | k :: rest =>
    match n with
    | .mk _ _ none => .structErr
    | .mk _ _ (some cs) => lookupList f cs (c + 1) k rest

/-- The per-level scan of `lookupNode`: commit to the first child whose key
matches `k`. -/
def lookupList {κ : Type} [DecidableEq κ] (f : Node → Int → κ)
    (cs : List Node) (idx : Int) (k : κ) (rest : List κ) : LookupRes :=
  match cs with
  | [] => .missing
  | c0 :: others =>
    if f c0 idx = k then
      match lookupNode f c0 idx rest with
      | .found m t ks => .found m t (0 :: ks)
      | r => r
    else
      (lookupList f others (idx + countTraverse c0) k rest).shift
end


/-- Rebuild along a child-position chain, mirroring `changeNodeAtPath`'s
splice: a truthy producer value replaces the terminal slot, a falsy one
deletes it, and the `'RESULT_MISS'` string propagates as a miss. -/
def rebuildKs (v : ProducerVal) : Node → List Nat → TravResult
  | _, [] => travOfProd v
  | n, kp :: ks =>
    match n.children with
    | none => .missR
    | some cs =>
      match cs[kp]? with
      | none => .missR
      | some ch =>
        match rebuildKs v ch ks with
        | .missR => .missR
        | .nodeR nd => .nodeR (n.withChildren (cs.set kp nd))
        | .falsyR => .nodeR (n.withChildren (cs.eraseIdx kp))

/-- The list-level rebuild: `remaining` is `csAll.drop i` and positions are
relative to `remaining`, while the splice happens at the absolute position in
`csAll`. -/
def rebuildKsList (v : ProducerVal) (parent : Node) (csAll : List Node)
    (i : Nat) (remaining : List Node) : List Nat → TravResult
  | [] => .missR
  | p :: ks =>
    match remaining[p]? with
    | none => .missR
    | some ch =>
      match rebuildKs v ch ks with
      | .missR => .missR
      | .nodeR nd => .nodeR (parent.withChildren (csAll.set (i + p) nd))
      | .falsyR => .nodeR (parent.withChildren (csAll.eraseIdx (i + p)))

/- ### Structural sharing (C6) -/

/-- The frame relation: the new children list differs from the old in exactly
one slot; in the `deeper` case that slot holds the same node with only its
children rebuilt (payload and `expanded` preserved by the spread), and the
relation holds recursively below.  All other slots are passed through as the
very same values. -/
inductive SharedOutsideEdit : List Node → List Node → Prop where
  | terminal (cs : List Node) (kp : Nat) (nd : Node) :
      SharedOutsideEdit cs (cs.set kp nd)
  | deeper (cs : List Node) (kp : Nat) (n : Node) (cc cc' : List Node)
      (hk : cs[kp]? = some n) (hch : n.children = some cc)
      (hrec : SharedOutsideEdit cc cc') :
      SharedOutsideEdit cs (cs.set kp (n.withChildren cc'))

/-- Validity of a child-position chain. -/
def KsValid : Node → List Nat → Prop
  | _, [] => True
  | n, kp :: ks =>
    match n.children with
    | none => False
    | some cs =>
      match cs[kp]? with
      | none => False
      | some ch => KsValid ch ks

/-! ## Theorems -/


theorem countTraverse_pos (n : Node) : 0 < countTraverse n := by
  rcases n with ⟨p, e, _ | cs⟩
  · simp [countTraverse]
  · simp [countTraverse]
    split <;> omega

theorem countTraverseList_append (a b : List Node) :
    countTraverseList (a ++ b) = countTraverseList a + countTraverseList b := by
  induction a with
  | nil => simp [countTraverseList]
  | cons n rest ih => simp [countTraverseList, ih]; omega

theorem getVisibleNodeCount_eq (treeData : List Node) :
    getVisibleNodeCount treeData = countTraverseList treeData := by
  suffices h : ∀ a, treeData.foldl (fun total n => total + countTraverse n) a =
      a + countTraverseList treeData by
    simpa [getVisibleNodeCount] using h 0
  induction treeData with
  | nil => intro a; simp [countTraverseList]
  | cons n rest ih => intro a; simp [countTraverseList, List.foldl_cons, ih]; omega

mutual
theorem visRecords_length {κ : Type} (f : Node → Int → κ) (n : Node) (c : Int)
    (p : List κ) (l : List Nat) :
    (visRecords f n c p l).length = countTraverse n := by
  rcases n with ⟨pl, e, _ | cs⟩
  · simp [visRecords, visChildren, countTraverse]
  · rcases e with _ | _ | _
    · simp [visRecords, visChildren, countTraverse]
    · simp [visRecords, visChildren, countTraverse]
    · simp [visRecords, visChildren, countTraverse,
        visRecordsList_length f cs (c + 1) (p ++ [f (.mk pl (some true) (some cs)) c]) l]
      omega

theorem visRecordsList_length {κ : Type} (f : Node → Int → κ) (cs : List Node)
    (c : Int) (p : List κ) (l : List Nat) :
    (visRecordsList f cs c p l).length = countTraverseList cs := by
  match cs with
  | [] => simp [visRecordsList, countTraverseList]
  | n :: rest =>
    simp [visRecordsList, countTraverseList,
      visRecords_length f n c p (l ++ [rest.length]),
      visRecordsList_length f rest (c + countTraverse n) p l]
end


mutual
theorem visRecords_treeIndex {κ : Type} (f : Node → Int → κ) (n : Node) (c : Int)
    (p : List κ) (l : List Nat) (j : Nat) (r : WalkInfo κ)
    (hr : (visRecords f n c p l)[j]? = some r) : r.treeIndex = c + j := by
  match j with
  | 0 =>
    simp [visRecords] at hr
    simp [← hr]
  | j + 1 =>
    rw [visRecords] at hr
    simp only [List.getElem?_cons_succ] at hr
    rcases n with ⟨pl, e, _ | cs⟩
    · simp [visChildren] at hr
    · rcases e with _ | _ | _
      · simp [visChildren] at hr
      · simp [visChildren] at hr
      · rw [visChildren] at hr
        have := visRecordsList_treeIndex f cs (c + 1)
          (p ++ [f (.mk pl (some true) (some cs)) c]) l j r hr
        omega

theorem visRecordsList_treeIndex {κ : Type} (f : Node → Int → κ) (cs : List Node)
    (c : Int) (p : List κ) (l : List Nat) (j : Nat) (r : WalkInfo κ)
    (hr : (visRecordsList f cs c p l)[j]? = some r) : r.treeIndex = c + j := by
  match cs with
  | [] => simp [visRecordsList] at hr
  | n :: rest =>
    rw [visRecordsList] at hr
    by_cases hj : j < (visRecords f n c p (l ++ [rest.length])).length
    · rw [List.getElem?_append_left hj] at hr
      exact visRecords_treeIndex f n c p (l ++ [rest.length]) j r hr
    · rw [List.getElem?_append_right (Nat.le_of_not_lt hj)] at hr
      have hlen := visRecords_length f n c p (l ++ [rest.length])
      have := visRecordsList_treeIndex f rest (c + countTraverse n) p l
        (j - (visRecords f n c p (l ++ [rest.length])).length) r hr
      omega
end


/- ### Characterization of getNodeDataAtTreeIndexOrNextIndex with a pure key -/

mutual
theorem gnd_miss {σ κ : Type} (f : Node → Int → κ) (n : Node) (c t : Int)
    (p : List κ) (l : List Nat) (s : σ)
    (ht : t < c ∨ c + countTraverse n ≤ t) :
    getNodeDataAtTreeIndexOrNextIndex (pureKey f) n c t p l true false s =
      (s, .next (c + countTraverse n)) := by
  have hpos := countTraverse_pos n
  have hne : ¬(c = t) := by omega
  rcases n with ⟨pl, e, _ | cs⟩
  · simp [getNodeDataAtTreeIndexOrNextIndex, pureKey, hne, countTraverse]
  · by_cases he : e = some true
    · subst he
      rw [getNodeDataAtTreeIndexOrNextIndex]
      simp only [pureKey, Bool.false_eq_true, if_false, if_neg hne]
      have hct : countTraverse (Node.mk pl (some true) (some cs)) =
          1 + countTraverseList cs := by simp [countTraverse]
      rw [hct] at ht ⊢
      have h2 := gndChildren_miss f cs (c + 1) t
        (p ++ [f (Node.mk pl (some true) (some cs)) c]) l s (by push_cast at ht ⊢; omega)
      simp only [ne_eq, not_true_eq_false, and_false, if_false]
      rw [h2]
      congr 2
      push_cast
      ring
    · rw [getNodeDataAtTreeIndexOrNextIndex]
      simp only [pureKey, if_neg hne]
      have hct : countTraverse (Node.mk pl e (some cs)) = 1 := by
        simp [countTraverse, he]
      rw [hct]
      simp [he]

theorem gndChildren_miss {σ κ : Type} (f : Node → Int → κ) (cs : List Node)
    (b t : Int) (p : List κ) (l : List Nat) (s : σ)
    (ht : t < b ∨ b + countTraverseList cs ≤ t) :
    gndChildren (pureKey f) cs b t p l s = (s, .next (b + countTraverseList cs)) := by
  match cs with
  | [] => simp [gndChildren, countTraverseList]
  | c0 :: rest =>
    rw [gndChildren]
    have hct : countTraverseList (c0 :: rest) =
        countTraverse c0 + countTraverseList rest := by simp [countTraverseList]
    rw [hct] at ht ⊢
    have hpos := countTraverse_pos c0
    have h0 := gnd_miss f c0 b t p (l ++ [rest.length]) s (by push_cast at ht ⊢; omega)
    rw [h0]
    dsimp only
    have h1 := gndChildren_miss f rest (b + countTraverse c0) t p l s
      (by push_cast at ht ⊢; omega)
    rw [h1]
    congr 2
    push_cast
    ring
end


mutual
theorem gnd_found {σ κ : Type} (f : Node → Int → κ) (n : Node) (c : Int)
    (p : List κ) (l : List Nat) (s : σ) (j : Nat) (r : WalkInfo κ)
    (hr : (visRecords f n c p l)[j]? = some r) :
    getNodeDataAtTreeIndexOrNextIndex (pureKey f) n c (c + j) p l true false s =
      (s, .found ⟨r.node, r.lowerSiblingCounts, r.path⟩) := by
  match j with
  | 0 =>
    simp only [visRecords, List.getElem?_cons_zero, Option.some.injEq] at hr
    rw [getNodeDataAtTreeIndexOrNextIndex.eq_def]
    simp [pureKey, ← hr]
  | j + 1 =>
    have hne : ¬(c = c + ((j : Int) + 1)) := by omega
    rw [visRecords] at hr
    simp only [List.getElem?_cons_succ] at hr
    rcases n with ⟨pl, e, _ | cs⟩
    · simp [visChildren] at hr
    · rcases e with _ | _ | _
      · simp [visChildren] at hr
      · simp [visChildren] at hr
      · rw [visChildren] at hr
        rw [getNodeDataAtTreeIndexOrNextIndex]
        simp only [pureKey]
        have harith : c + ((j : Int) + 1) = (c + 1) + (j : Int) := by ring
        have h2 := gndChildren_found f cs (c + 1)
          (p ++ [f (Node.mk pl (some true) (some cs)) c]) l s j r hr
        push_cast
        rw [if_neg (hne)]
        simp only [ne_eq, not_true_eq_false, and_false, if_false]
        rw [harith]
        exact h2

theorem gndChildren_found {σ κ : Type} (f : Node → Int → κ) (cs : List Node)
    (b : Int) (p : List κ) (l : List Nat) (s : σ) (j : Nat) (r : WalkInfo κ)
    (hr : (visRecordsList f cs b p l)[j]? = some r) :
    gndChildren (pureKey f) cs b (b + j) p l s =
      (s, .found ⟨r.node, r.lowerSiblingCounts, r.path⟩) := by
  match cs with
  | [] => simp [visRecordsList] at hr
  | c0 :: rest =>
    rw [visRecordsList] at hr
    have hlen := visRecords_length f c0 b p (l ++ [rest.length])
    rw [gndChildren]
    by_cases hj : j < (visRecords f c0 b p (l ++ [rest.length])).length
    · rw [List.getElem?_append_left hj] at hr
      have h0 := gnd_found f c0 b p (l ++ [rest.length]) s j r hr
      rw [h0]
    · rw [List.getElem?_append_right (Nat.le_of_not_lt hj)] at hr
      have hmiss := gnd_miss f c0 b (b + j) p (l ++ [rest.length]) s
        (by rw [hlen] at hj; right; omega)
      rw [hmiss]
      dsimp only
      have h1 := gndChildren_found f rest (b + countTraverse c0) p l s
        (j - (visRecords f c0 b p (l ++ [rest.length])).length) r hr
      have harith : b + (j : Int) =
          (b + countTraverse c0) + ((j - (visRecords f c0 b p (l ++ [rest.length])).length : Nat) : Int) := by
        rw [hlen] at hj ⊢
        omega
      rw [harith]
      exact h1
end

theorem forestRecords_treeIndex {κ : Type} (f : Node → Int → κ)
    (treeData : List Node) (j : Nat) (r : WalkInfo κ)
    (hr : (forestRecords f treeData)[j]? = some r) : r.treeIndex = j := by
  have := visRecordsList_treeIndex f treeData 0 [] [] j r hr
  omega

theorem forestRecords_length {κ : Type} (f : Node → Int → κ) (treeData : List Node) :
    (forestRecords f treeData).length = getVisibleNodeCount treeData := by
  rw [forestRecords, visRecordsList_length, getVisibleNodeCount_eq]

theorem atIndexP_found {κ : Type} (f : Node → Int → κ) (treeData : List Node)
    (j : Nat) (r : WalkInfo κ) (hr : (forestRecords f treeData)[j]? = some r) :
    atIndexP f treeData j = some ⟨r.node, r.lowerSiblingCounts, r.path⟩ := by
  have hT : treeData ≠ [] := by
    rintro rfl
    simp [forestRecords, visRecordsList] at hr
  have hfound := gndChildren_found f treeData 0 [] [] () j r hr
  unfold atIndexP getVisibleNodeInfoAtIndex
  rw [if_neg (by have h := List.length_pos.mpr hT; omega)]
  rw [getNodeDataAtTreeIndexOrNextIndex.eq_def]
  simp only [pureKey, if_true]
  rw [if_neg (by omega)]
  simp only [Node.children, ne_eq, not_true_eq_false, and_false, if_false]
  rw [show (-1 : Int) + 1 = 0 by ring]
  rw [show ((j : Int)) = 0 + (j : Int) by ring]
  rw [hfound]

theorem atIndexP_miss {κ : Type} (f : Node → Int → κ) (treeData : List Node)
    (t : Int) (ht : (getVisibleNodeCount treeData : Int) ≤ t) :
    atIndexP f treeData t = none := by
  by_cases hT : treeData = []
  · subst hT
    simp [atIndexP, getVisibleNodeInfoAtIndex]
  · have hmiss := gndChildren_miss f treeData 0 t [] [] ()
      (by rw [getVisibleNodeCount_eq] at ht; omega)
    unfold atIndexP getVisibleNodeInfoAtIndex
    rw [if_neg (by have h := List.length_pos.mpr hT; omega)]
    rw [getNodeDataAtTreeIndexOrNextIndex.eq_def]
    simp only [pureKey, if_true]
    have hc : getVisibleNodeCount treeData ≠ 0 := by
      rw [getVisibleNodeCount_eq]
      cases treeData with
      | nil => exact absurd rfl hT
      | cons a b =>
        have := countTraverse_pos a
        simp [countTraverseList]
        omega
    rw [if_neg (by omega)]
    simp only [Node.children, ne_eq, not_true_eq_false, and_false, if_false]
    rw [show (-1 : Int) + 1 = 0 by ring]
    rw [hmiss]

theorem runVisits_append {σ κ : Type} (callback : σ → WalkInfo κ → σ × Bool)
    (s : σ) (xs ys : List (WalkInfo κ)) :
    runVisits callback s (xs ++ ys) =
      (let a := runVisits callback s xs
       if a.2 = false then a else runVisits callback a.1 ys) := by
  induction xs generalizing s with
  | nil => simp [runVisits]
  | cons x xs ih =>
    simp only [List.cons_append, runVisits]
    by_cases h : (callback s x).2 = false
    · simp [h]
    · simp only [h, if_false, ite_false]
      exact ih (callback s x).1

mutual
theorem walkDescendants_char {σ κ : Type} (f : Node → Int → κ)
    (callback : σ → WalkInfo κ → σ × Bool) (n : Node) (c : Int) (p : List κ)
    (l : List Nat) (s : σ) :
    walkDescendants (pureKey f) callback true false n c p l s =
      (let a := runVisits callback s (visRecords f n c p l)
       (a.1, if a.2 = false then none else some (c + countTraverse n - 1))) := by
  rw [walkDescendants.eq_def]
  simp only [pureKey, visRecords, runVisits]
  by_cases hcb : (callback s ⟨n, p ++ [f n c], l, c⟩).2 = false
  · simp [hcb]
  · simp only [hcb, if_false, Bool.false_eq_true, ite_false]
    rcases n with ⟨pl, e, _ | cs⟩
    · simp [visChildren, countTraverse, runVisits]
    · by_cases he : e = some true
      · subst he
        simp only [ne_eq, not_true_eq_false, false_and, and_false, if_false, ite_false]
        rw [walkChildren_char f callback cs c
          (p ++ [f (Node.mk pl (some true) (some cs)) c]) l
          (callback s ⟨Node.mk pl (some true) (some cs),
            p ++ [f (Node.mk pl (some true) (some cs)) c], l, c⟩).1]
        simp only [visChildren, countTraverse]
        have harith : c + ((1 + countTraverseList cs : Nat) : Int) - 1 =
            c + (countTraverseList cs : Int) := by push_cast; ring
        simp [harith]
        split
        · rfl
        · congr 1
          ring
      · have hct : countTraverse (Node.mk pl e (some cs)) = 1 := by
          simp [countTraverse, he]
        have hvc : visChildren f (Node.mk pl e (some cs)) c p l = [] := by
          rcases e with _ | _ | _ <;> simp_all [visChildren]
        simp [hct, hvc, runVisits, hcb, he]

theorem walkChildren_char {σ κ : Type} (f : Node → Int → κ)
    (callback : σ → WalkInfo κ → σ × Bool) (cs : List Node) (b : Int)
    (p : List κ) (l : List Nat) (s : σ) :
    walkChildren (pureKey f) callback true cs b p l s =
      (let a := runVisits callback s (visRecordsList f cs (b + 1) p l)
       (a.1, if a.2 = false then none else some (b + countTraverseList cs))) := by
  match cs with
  | [] => simp [walkChildren, visRecordsList, runVisits, countTraverseList]
  | c0 :: rest =>
    rw [walkChildren]
    rw [walkDescendants_char f callback c0 (b + 1) p (l ++ [rest.length]) s]
    rw [visRecordsList, runVisits_append callback s]
    simp only []
    by_cases h0 : (runVisits callback s (visRecords f c0 (b + 1) p (l ++ [rest.length]))).2 = false
    · simp [h0, countTraverseList]
    · rw [if_neg h0]
      have hidx : b + 1 + (countTraverse c0 : Int) - 1 = b + (countTraverse c0 : Int) := by ring
      rw [hidx]
      dsimp only
      rw [walkChildren_char f callback rest (b + countTraverse c0) p l]
      rw [if_neg h0]
      have hidx2 : b + (countTraverse c0 : Int) + 1 = b + 1 + (countTraverse c0 : Int) := by ring
      rw [hidx2]
      simp only []
      by_cases h1 : (runVisits callback
          (runVisits callback s (visRecords f c0 (b + 1) p (l ++ [rest.length]))).1
          (visRecordsList f rest (b + 1 + (countTraverse c0 : Int)) p l)).2 = false
      · simp [h1]
      · rw [if_neg h1, if_neg h1]
        simp only [countTraverseList]
        congr 2
        push_cast
        ring
end


theorem walk_char {σ κ : Type} (f : Node → Int → κ)
    (callback : σ → WalkInfo κ → σ × Bool) (treeData : List Node) (s : σ)
    (hT : treeData ≠ []) :
    walk (pureKey f) callback true treeData s =
      (let a := runVisits callback s (forestRecords f treeData)
       (a.1, if a.2 = false then .stopped else .idx (-1 + countTraverseList treeData))) := by
  unfold walk
  rw [if_neg (by have h := List.length_pos.mpr hT; omega)]
  rw [walkDescendants.eq_def]
  simp only [if_true, Bool.true_eq_false, if_false, ite_false, ite_true]
  rw [walkChildren_char f callback treeData (-1) [] [] s]
  rw [show (-1 : Int) + 1 = 0 by ring]
  simp only [forestRecords]
  by_cases h0 : (runVisits callback s (visRecordsList f treeData 0 [] [])).2 = false
  · simp [h0]
  · simp [h0]

theorem jsSetElem_append {α : Type} (s : List (Option α)) (v : α) :
    jsSetElem s s.length v = s ++ [some v] := by
  simp [jsSetElem]

theorem runVisits_setter {κ : Type} (rs : List (WalkInfo κ))
    (s : List (Option (NodeInfo κ)))
    (hidx : ∀ (k : Nat) (r : WalkInfo κ), rs[k]? = some r →
      r.treeIndex = (s.length : Int) + (k : Int)) :
    runVisits (fun st info =>
        (jsSetElem st info.treeIndex ⟨info.node, info.lowerSiblingCounts, info.path⟩, true))
      s rs =
      (s ++ rs.map (fun r => some ⟨r.node, r.lowerSiblingCounts, r.path⟩), true) := by
  induction rs generalizing s with
  | nil => simp [runVisits]
  | cons r rest ih =>
    rw [runVisits]
    have h0 : r.treeIndex = (s.length : Int) := by
      have := hidx 0 r (by simp)
      omega
    simp only [Bool.true_eq_false, if_false, ite_false]
    rw [h0, jsSetElem_append]
    have ihh := ih (s ++ [some (⟨r.node, r.lowerSiblingCounts, r.path⟩ : NodeInfo κ)])
      (by
        intro k r' hk
        have h2 := hidx (k + 1) r' (by simpa using hk)
        simp only [List.length_append, List.length_cons, List.length_nil]
        push_cast
        push_cast at h2
        omega)
    rw [ihh]
    simp

theorem getVisibleNodeInfoFlattened_char {κ : Type} (f : Node → Int → κ)
    (treeData : List Node) :
    getVisibleNodeInfoFlattened f treeData =
      (forestRecords f treeData).map
        (fun r => some ⟨r.node, r.lowerSiblingCounts, r.path⟩) := by
  by_cases hT : treeData = []
  · subst hT
    simp [getVisibleNodeInfoFlattened, forestRecords, visRecordsList]
  · unfold getVisibleNodeInfoFlattened
    rw [if_neg (by have h := List.length_pos.mpr hT; omega)]
    rw [show (fun (s : List (Option (NodeInfo κ))) n i => (s, f n i)) = pureKey f from rfl]
    rw [walk_char f _ treeData [] hT]
    rw [runVisits_setter (forestRecords f treeData) []
      (by
        intro k r hk
        have := forestRecords_treeIndex f treeData k r hk
        simpa using this)]
    simp

/-- C4: `getVisibleNodeCount(T)` equals the length of the array returned by
`getVisibleNodeInfoFlattened(T, keyFn)`, for every tree and key function. -/
theorem visibleCount_eq_flattened_length {κ : Type} (f : Node → Int → κ)
    (treeData : List Node) :
    getVisibleNodeCount treeData = (getVisibleNodeInfoFlattened f treeData).length := by
  rw [getVisibleNodeInfoFlattened_char, List.length_map, forestRecords_length]

/-- C2: for every `i` in range, the `i`-th record of
`getVisibleNodeInfoFlattened` and the record returned by
`getVisibleNodeInfoAtIndex` at index `i` are the same node/path/sibling-count
record. -/
theorem flattened_agrees_with_atIndex {κ : Type} (f : Node → Int → κ)
    (treeData : List Node) (i : Nat) (hi : i < getVisibleNodeCount treeData) :
    ∃ e : NodeInfo κ, (getVisibleNodeInfoFlattened f treeData)[i]? = some (some e) ∧
      atIndexP f treeData i = some e := by
  have hlen : i < (forestRecords f treeData).length := by
    rw [forestRecords_length]; exact hi
  have hr : (forestRecords f treeData)[i]? = some ((forestRecords f treeData)[i]) :=
    List.getElem?_eq_getElem hlen
  refine ⟨⟨((forestRecords f treeData)[i]).node,
    ((forestRecords f treeData)[i]).lowerSiblingCounts,
    ((forestRecords f treeData)[i]).path⟩, ?_, ?_⟩
  · rw [getVisibleNodeInfoFlattened_char]
    simp [List.getElem?_map, hr]
  · exact atIndexP_found f treeData i _ hr

/-- Witness for C2 on a concrete tree and index. -/
theorem flattened_agrees_with_atIndex_witness :
    (2 : Nat) < getVisibleNodeCount
        [Node.mk 1 (some true) (some [Node.mk 2 none none, Node.mk 3 none none]),
         Node.mk 4 none none] ∧
    ∃ e : NodeInfo Nat,
      (getVisibleNodeInfoFlattened (fun n _ => n.payload)
        [Node.mk 1 (some true) (some [Node.mk 2 none none, Node.mk 3 none none]),
         Node.mk 4 none none])[2]? = some (some e) ∧
      atIndexP (fun n _ => n.payload)
        [Node.mk 1 (some true) (some [Node.mk 2 none none, Node.mk 3 none none]),
         Node.mk 4 none none] 2 = some e :=
  ⟨by decide, flattened_agrees_with_atIndex (fun n _ => n.payload) _ 2 (by decide)⟩

/-- C5: a node with `expanded` false/unset and a children array contributes
exactly 1 to `getVisibleNodeCount` (shown per-node and for a whole root-level
forest), advances the linear index by exactly 1 in the index traversal, and
toggling it to `expanded = true` increases the visible count by exactly its
visible-descendant count (`countTraverseList cs`, which by
`visRecordsList_length` is the number of visible descendant records). -/
theorem collapsedNode_skip {σ κ : Type} (f : Node → Int → κ) (p0 : Nat)
    (e : Option Bool) (cs : List Node) (L R : List Node) (c t : Int)
    (pth : List κ) (l : List Nat) (s : σ)
    (he : e ≠ some true) (ht : t ≠ c) :
    countTraverse (Node.mk p0 e (some cs)) = 1 ∧
    getVisibleNodeCount (L ++ Node.mk p0 e (some cs) :: R) =
      getVisibleNodeCount L + 1 + getVisibleNodeCount R ∧
    getNodeDataAtTreeIndexOrNextIndex (pureKey f) (Node.mk p0 e (some cs)) c t
      pth l true false s = (s, .next (c + 1)) ∧
    getVisibleNodeCount (L ++ Node.mk p0 (some true) (some cs) :: R) =
      getVisibleNodeCount (L ++ Node.mk p0 e (some cs) :: R) + countTraverseList cs := by
  have hct : countTraverse (Node.mk p0 e (some cs)) = 1 := by
    simp [countTraverse, he]
  have hctT : countTraverse (Node.mk p0 (some true) (some cs)) = 1 + countTraverseList cs := by
    simp [countTraverse]
  refine ⟨hct, ?_, ?_, ?_⟩
  · rw [getVisibleNodeCount_eq, getVisibleNodeCount_eq, getVisibleNodeCount_eq,
      countTraverseList_append]
    simp [countTraverseList, hct]
    omega
  · have h := gnd_miss f (Node.mk p0 e (some cs)) c t pth l s (by rw [hct]; omega)
    rw [hct] at h
    exact h
  · rw [getVisibleNodeCount_eq, getVisibleNodeCount_eq,
      countTraverseList_append, countTraverseList_append]
    simp [countTraverseList, hct, hctT]
    omega

/-- Witness for C5 at a concrete collapsed two-descendant node. -/
theorem collapsedNode_skip_witness :
    ((none : Option Bool) ≠ some true ∧ (5 : Int) ≠ 0) ∧
    (countTraverse (Node.mk 1 none (some [Node.mk 2 (some true) (some [Node.mk 3 none none])])) = 1 ∧
     getVisibleNodeCount ([] ++ Node.mk 1 none (some [Node.mk 2 (some true) (some [Node.mk 3 none none])]) :: [Node.mk 9 none none]) =
       getVisibleNodeCount [] + 1 + getVisibleNodeCount [Node.mk 9 none none] ∧
     getNodeDataAtTreeIndexOrNextIndex (pureKey (fun n _ => n.payload))
       (Node.mk 1 none (some [Node.mk 2 (some true) (some [Node.mk 3 none none])])) 0 5 [] [] true false () =
       ((), .next (0 + 1)) ∧
     getVisibleNodeCount ([] ++ Node.mk 1 (some true) (some [Node.mk 2 (some true) (some [Node.mk 3 none none])]) :: [Node.mk 9 none none]) =
       getVisibleNodeCount ([] ++ Node.mk 1 none (some [Node.mk 2 (some true) (some [Node.mk 3 none none])]) :: [Node.mk 9 none none]) +
         countTraverseList [Node.mk 2 (some true) (some [Node.mk 3 none none])]) :=
  ⟨⟨by decide, by decide⟩,
    collapsedNode_skip (fun n _ => n.payload) 1 none
      [Node.mk 2 (some true) (some [Node.mk 3 none none])] [] [Node.mk 9 none none]
      0 5 [] [] () (by decide) (by decide)⟩

theorem runVisits_log {σ κ : Type} (cb : σ → WalkInfo κ → σ × Bool) (s : σ)
    (log : List (WalkInfo κ)) (rs : List (WalkInfo κ)) :
    runVisits (loggingCallback cb) (s, log) rs =
      (((runVisits cb s rs).1, log ++ takeUntilStop cb s rs), (runVisits cb s rs).2) := by
  induction rs generalizing s log with
  | nil => simp [runVisits, takeUntilStop]
  | cons r rest ih =>
    rw [runVisits, runVisits, takeUntilStop]
    simp only [loggingCallback]
    by_cases h : (cb s r).2 = false
    · simp [h]
    · simp only [h, if_false, Bool.false_eq_true, ite_false]
      rw [ih (cb s r).1 (log ++ [r])]
      simp

theorem takeUntilStop_prefix {σ κ : Type} (cb : σ → WalkInfo κ → σ × Bool)
    (s : σ) (rs : List (WalkInfo κ)) :
    List.IsPrefix (takeUntilStop cb s rs) rs := by
  induction rs generalizing s with
  | nil => simp [takeUntilStop]
  | cons r rest ih =>
    rw [takeUntilStop]
    by_cases h : (cb s r).2 = false
    · simp only [h, if_true, ite_true]
      exact ⟨rest, rfl⟩
    · simp only [h, if_false, Bool.false_eq_true, ite_false]
      exact (List.cons_prefix_cons).mpr ⟨rfl, ih (cb s r).1⟩

/-- C9: the records the `walk` callback is invoked on form exactly the
`takeUntilStop` prefix of the visible pre-order record list: each visited
record is handed to the callback in pre-order, the first record on which the
callback returns `false` is the last one visited, and no later record — no
remaining sibling, no subtree — is ever visited. -/
theorem walk_early_termination {σ κ : Type} (f : Node → Int → κ)
    (cb : σ → WalkInfo κ → σ × Bool) (treeData : List Node) (s : σ) :
    walkVisitLog f cb treeData s = takeUntilStop cb s (forestRecords f treeData) ∧
    List.IsPrefix (walkVisitLog f cb treeData s) (forestRecords f treeData) := by
  have hmain : walkVisitLog f cb treeData s = takeUntilStop cb s (forestRecords f treeData) := by
    by_cases hT : treeData = []
    · subst hT
      simp [walkVisitLog, walk, forestRecords, visRecordsList, takeUntilStop]
    · unfold walkVisitLog
      rw [walk_char f (loggingCallback cb) treeData (s, []) hT]
      rw [runVisits_log cb s [] (forestRecords f treeData)]
      by_cases h : (runVisits cb s (forestRecords f treeData)).2 = false
      · simp [h]
      · simp [h]
  exact ⟨hmain, hmain ▸ takeUntilStop_prefix cb s (forestRecords f treeData)⟩


mutual
theorem inTree_sizeOf (x n : Node) (h : inTree x n) : sizeOf x ≤ sizeOf n := by
  rcases n with ⟨p, e, _ | cs⟩
  · rw [inTree] at h
    exact h ▸ le_refl _
  · rw [inTree] at h
    rcases h with h | h
    · exact h ▸ le_refl _
    · have := inForest_sizeOf x cs h
      simp only [Node.mk.sizeOf_spec, Option.some.sizeOf_spec]
      omega

theorem inForest_sizeOf (x : Node) (cs : List Node) (h : inForest x cs) :
    sizeOf x ≤ sizeOf cs := by
  match cs with
  | [] => exact absurd h (by rw [inForest]; exact not_false)
  | n :: rest =>
    rw [inForest] at h
    rcases h with h | h
    · have := inTree_sizeOf x n h
      simp only [List.cons.sizeOf_spec]
      omega
    · have := inForest_sizeOf x rest h
      simp only [List.cons.sizeOf_spec]
      omega
end


/-- No wrapper node holding the whole forest as its children can be a node of
that forest (a strict size argument), whatever its payload and flag. -/
theorem wrapper_not_inForest (p : Nat) (e : Option Bool) (treeData : List Node) :
    ¬ inForest (Node.mk p e (some treeData)) treeData := by
  intro h
  have := inForest_sizeOf _ treeData h
  simp only [Node.mk.sizeOf_spec, Option.some.sizeOf_spec] at this
  omega

mutual
theorem visRecords_node_inTree {κ : Type} (f : Node → Int → κ) (n : Node)
    (c : Int) (p : List κ) (l : List Nat) (r : WalkInfo κ)
    (hr : r ∈ visRecords f n c p l) : inTree r.node n := by
  rw [visRecords] at hr
  rcases List.mem_cons.mp hr with hr | hr
  · rcases n with ⟨pl, e, _ | cs⟩ <;> rw [inTree] <;> simp [hr]
  · rcases n with ⟨pl, e, _ | cs⟩
    · simp [visChildren] at hr
    · rcases e with _ | _ | _
      · simp [visChildren] at hr
      · simp [visChildren] at hr
      · rw [visChildren] at hr
        have := visRecordsList_node_inForest f cs (c + 1)
          (p ++ [f (Node.mk pl (some true) (some cs)) c]) l r hr
        rw [inTree]
        right
        exact this

theorem visRecordsList_node_inForest {κ : Type} (f : Node → Int → κ)
    (cs : List Node) (c : Int) (p : List κ) (l : List Nat) (r : WalkInfo κ)
    (hr : r ∈ visRecordsList f cs c p l) : inForest r.node cs := by
  match cs with
  | [] => simp [visRecordsList] at hr
  | n :: rest =>
    rw [visRecordsList] at hr
    rw [inForest]
    rcases List.mem_append.mp hr with hr | hr
    · exact Or.inl (visRecords_node_inTree f n c p (l ++ [rest.length]) r hr)
    · exact Or.inr (visRecordsList_node_inForest f rest (c + countTraverse n) p l r hr)
end


mutual
theorem visRecords_path_len {κ : Type} (f : Node → Int → κ) (n : Node)
    (c : Int) (p : List κ) (l : List Nat) (r : WalkInfo κ)
    (hr : r ∈ visRecords f n c p l) : p.length + 1 ≤ r.path.length := by
  rw [visRecords] at hr
  rcases List.mem_cons.mp hr with hr | hr
  · subst hr
    simp
  · rcases n with ⟨pl, e, _ | cs⟩
    · simp [visChildren] at hr
    · rcases e with _ | _ | _
      · simp [visChildren] at hr
      · simp [visChildren] at hr
      · rw [visChildren] at hr
        have := visRecordsList_path_len f cs (c + 1)
          (p ++ [f (Node.mk pl (some true) (some cs)) c]) l r hr
        simp at this
        omega

theorem visRecordsList_path_len {κ : Type} (f : Node → Int → κ)
    (cs : List Node) (c : Int) (p : List κ) (l : List Nat) (r : WalkInfo κ)
    (hr : r ∈ visRecordsList f cs c p l) : p.length + 1 ≤ r.path.length := by
  match cs with
  | [] => simp [visRecordsList] at hr
  | n :: rest =>
    rw [visRecordsList] at hr
    rcases List.mem_append.mp hr with hr | hr
    · exact visRecords_path_len f n c p (l ++ [rest.length]) r hr
    · exact visRecordsList_path_len f rest (c + countTraverse n) p l r hr
end


/-- C7 counterexample: with target index `-1` (an integer index), the index
lookup emits the synthesized pseudo-root wrapper itself, with an empty path —
the wrapper `{children: treeData, expanded: true}` is not a node of the tree. -/
theorem pseudoRoot_emitted_at_minus_one :
    atIndexP (fun n _ => n.payload) [Node.mk 1 none none] (-1) =
      some ⟨Node.mk 0 (some true) (some [Node.mk 1 none none]), [], []⟩ ∧
    ¬ inForest (Node.mk 0 (some true) (some [Node.mk 1 none none]))
        [Node.mk 1 none none] :=
  ⟨rfl, wrapper_not_inForest 0 (some true) [Node.mk 1 none none]⟩

/-- C7 (amended to non-negative target indices, which §4.3 requires): the
index lookup then only returns nodes of the tree — never the pseudo-root
wrapper — with a non-empty key path, and the walk callback is only invoked on
nodes of the tree — never on the `{children: treeData}` wrapper. -/
theorem pseudoRoot_never_emitted {σ κ : Type} (f : Node → Int → κ)
    (cb : σ → WalkInfo κ → σ × Bool) (treeData : List Node) (t : Int)
    (s : σ) (r : NodeInfo κ) (ht : 0 ≤ t) (hr : atIndexP f treeData t = some r) :
    (inForest r.node treeData ∧
     r.node ≠ Node.mk 0 (some true) (some treeData) ∧
     1 ≤ r.path.length) ∧
    (∀ info ∈ walkVisitLog f cb treeData s,
      inForest info.node treeData ∧ info.node ≠ Node.mk 0 none (some treeData)) := by
  constructor
  · -- the resolved record comes from the reference record list
    by_cases hcount : t < (getVisibleNodeCount treeData : Int)
    · obtain ⟨j, rfl⟩ : ∃ j : Nat, t = (j : Int) := ⟨t.toNat, (Int.toNat_of_nonneg ht).symm⟩
      have hj : j < (forestRecords f treeData).length := by
        rw [forestRecords_length]
        exact_mod_cast hcount
      have hget : (forestRecords f treeData)[j]? = some ((forestRecords f treeData)[j]) :=
        List.getElem?_eq_getElem hj
      have hfound := atIndexP_found f treeData j ((forestRecords f treeData)[j]) hget
      rw [hfound] at hr
      obtain rfl : r = ⟨((forestRecords f treeData)[j]).node,
          ((forestRecords f treeData)[j]).lowerSiblingCounts,
          ((forestRecords f treeData)[j]).path⟩ := by
        exact (Option.some.injEq _ _ ▸ hr).symm
      have hmem : (forestRecords f treeData)[j] ∈ forestRecords f treeData :=
        List.getElem_mem hj
      have hin := visRecordsList_node_inForest f treeData 0 [] [] _ hmem
      have hpath := visRecordsList_path_len f treeData 0 [] [] _ hmem
      refine ⟨hin, ?_, by simpa using hpath⟩
      intro hEq
      exact wrapper_not_inForest 0 (some true) treeData (hEq ▸ hin)
    · rw [atIndexP_miss f treeData t (by omega)] at hr
      exact absurd hr (by simp)
  · intro info hinfo
    have hlog := (walk_early_termination f cb treeData s).2
    have hmem : info ∈ forestRecords f treeData := hlog.subset hinfo
    have hin := visRecordsList_node_inForest f treeData 0 [] [] _ hmem
    refine ⟨hin, ?_⟩
    intro hEq
    exact wrapper_not_inForest 0 none treeData (hEq ▸ hin)

/-- Witness for the amended C7 at a concrete tree and index 0. -/
theorem pseudoRoot_never_emitted_witness :
    ((0 : Int) ≤ 0 ∧
      atIndexP (fun n _ => n.payload) [Node.mk 1 none none] 0 =
        some ⟨Node.mk 1 none none, [0], [1]⟩) ∧
    ((inForest (Node.mk 1 none none) [Node.mk 1 none none] ∧
      Node.mk 1 none none ≠ Node.mk 0 (some true) (some [Node.mk 1 none none]) ∧
      1 ≤ ([(1 : Nat)] : List Nat).length) ∧
     (∀ info ∈ walkVisitLog (fun n _ => n.payload)
         (fun (s : Unit) _ => (s, true)) [Node.mk 1 none none] (),
       inForest info.node [Node.mk 1 none none] ∧
       info.node ≠ Node.mk 0 none (some [Node.mk 1 none none]))) :=
  ⟨⟨le_refl 0, rfl⟩,
    pseudoRoot_never_emitted (fun n _ => n.payload) (fun (s : Unit) _ => (s, true))
      [Node.mk 1 none none] 0 () ⟨Node.mk 1 none none, [0], [1]⟩ (le_refl 0) rfl⟩

theorem visitedUpTo_append_noHit {κ : Type} (t : Int) (xs ys : List (WalkInfo κ))
    (h : ∀ r ∈ xs, r.treeIndex ≠ t) :
    visitedUpTo t (xs ++ ys) = xs ++ visitedUpTo t ys := by
  induction xs with
  | nil => simp
  | cons x rest ih =>
    rw [List.cons_append, visitedUpTo]
    rw [if_neg (h x (by simp))]
    rw [ih (fun r hr => h r (by simp [hr]))]
    simp

theorem visitedUpTo_all_noHit {κ : Type} (t : Int) (xs : List (WalkInfo κ))
    (h : ∀ r ∈ xs, r.treeIndex ≠ t) : visitedUpTo t xs = xs := by
  have h2 := visitedUpTo_append_noHit t xs [] h
  rw [List.append_nil] at h2
  rw [h2, visitedUpTo, List.append_nil]

theorem visitedUpTo_append_hit {κ : Type} (t : Int) (xs ys : List (WalkInfo κ))
    (h : ∃ r ∈ xs, r.treeIndex = t) :
    visitedUpTo t (xs ++ ys) = visitedUpTo t xs := by
  induction xs with
  | nil => simp at h
  | cons x rest ih =>
    rw [List.cons_append, visitedUpTo, visitedUpTo]
    by_cases hx : x.treeIndex = t
    · simp [hx]
    · rw [if_neg hx, if_neg hx]
      obtain ⟨r, hr, hrt⟩ := h
      rcases List.mem_cons.mp hr with rfl | hr
      · exact absurd hrt hx
      · rw [ih ⟨r, hr, hrt⟩]

/-- The linear indices of the records of a subtree span exactly
`[c, c + countTraverse n)`. -/
theorem visRecords_index_bounds {κ : Type} (f : Node → Int → κ) (n : Node)
    (c : Int) (p : List κ) (l : List Nat) (r : WalkInfo κ)
    (hr : r ∈ visRecords f n c p l) :
    c ≤ r.treeIndex ∧ r.treeIndex < c + countTraverse n := by
  obtain ⟨j, hj, hget⟩ := List.getElem_of_mem hr
  have hidx := visRecords_treeIndex f n c p l j r (by rw [List.getElem?_eq_getElem hj, hget])
  have hlen := visRecords_length f n c p l
  omega

theorem visRecordsList_index_bounds {κ : Type} (f : Node → Int → κ)
    (cs : List Node) (c : Int) (p : List κ) (l : List Nat) (r : WalkInfo κ)
    (hr : r ∈ visRecordsList f cs c p l) :
    c ≤ r.treeIndex ∧ r.treeIndex < c + countTraverseList cs := by
  obtain ⟨j, hj, hget⟩ := List.getElem_of_mem hr
  have hidx := visRecordsList_treeIndex f cs c p l j r (by rw [List.getElem?_eq_getElem hj, hget])
  have hlen := visRecordsList_length f cs c p l
  omega

/-- When the target index falls inside a subtree's span, some record of the
subtree carries it. -/
theorem visRecords_index_hit {κ : Type} (f : Node → Int → κ) (n : Node)
    (c : Int) (p : List κ) (l : List Nat) (t : Int)
    (h1 : c ≤ t) (h2 : t < c + countTraverse n) :
    ∃ r ∈ visRecords f n c p l, r.treeIndex = t := by
  have hlen := visRecords_length f n c p l
  have hj : (t - c).toNat < (visRecords f n c p l).length := by omega
  refine ⟨(visRecords f n c p l)[(t - c).toNat], List.getElem_mem hj, ?_⟩
  have := visRecords_treeIndex f n c p l (t - c).toNat _ (List.getElem?_eq_getElem hj)
  omega

mutual
theorem gnd_keyLog {κ : Type} (f : Node → Int → κ) (n : Node) (c t : Int)
    (p : List κ) (l : List Nat) (log : List (Node × Int)) :
    getNodeDataAtTreeIndexOrNextIndex (loggingKey f) n c t p l true false log =
      (log ++ (visitedUpTo t (visRecords f n c p l)).map (fun r => (r.node, r.treeIndex)),
       (getNodeDataAtTreeIndexOrNextIndex (pureKey f) n c t p l true false ()).2) := by
  by_cases hct : c = t
  · subst hct
    rw [getNodeDataAtTreeIndexOrNextIndex.eq_def]
    conv_rhs => rw [getNodeDataAtTreeIndexOrNextIndex.eq_def]
    simp [loggingKey, pureKey, visRecords, visitedUpTo]
  · rcases n with ⟨pl, e, _ | cs⟩
    · rw [getNodeDataAtTreeIndexOrNextIndex.eq_def]
      conv_rhs => rw [getNodeDataAtTreeIndexOrNextIndex.eq_def]
      simp [loggingKey, pureKey, hct, visRecords, visChildren, visitedUpTo]
    · by_cases he : e = some true
      · subst he
        rw [getNodeDataAtTreeIndexOrNextIndex.eq_def]
        conv_rhs => rw [getNodeDataAtTreeIndexOrNextIndex.eq_def]
        simp only [loggingKey, pureKey, if_neg hct, ne_eq, not_true_eq_false,
          and_false, if_false, ite_false, Bool.false_eq_true]
        rw [gndChildren_keyLog f cs (c + 1) t
          (p ++ [f (Node.mk pl (some true) (some cs)) c]) l (log ++ [(Node.mk pl (some true) (some cs), c)])]
        rw [visRecords]
        rw [visitedUpTo]
        rw [if_neg (by simpa using hct)]
        simp only [visChildren, List.map_cons, List.append_assoc, List.cons_append,
          List.nil_append]
      · rw [getNodeDataAtTreeIndexOrNextIndex.eq_def]
        conv_rhs => rw [getNodeDataAtTreeIndexOrNextIndex.eq_def]
        have hvc : visChildren f (Node.mk pl e (some cs)) c p l = [] := by
          rcases e with _ | _ | _ <;> simp_all [visChildren]
        simp [loggingKey, pureKey, hct, he, visRecords, hvc, visitedUpTo]

theorem gndChildren_keyLog {κ : Type} (f : Node → Int → κ) (cs : List Node)
    (b t : Int) (sp : List κ) (l : List Nat) (log : List (Node × Int)) :
    gndChildren (loggingKey f) cs b t sp l log =
      (log ++ (visitedUpTo t (visRecordsList f cs b sp l)).map (fun r => (r.node, r.treeIndex)),
       (gndChildren (pureKey f) cs b t sp l ()).2) := by
  match cs with
  | [] => simp [gndChildren, visRecordsList, visitedUpTo]
  | c0 :: rest =>
    have hlen := visRecords_length f c0 b sp (l ++ [rest.length])
    by_cases hhit : b ≤ t ∧ t < b + countTraverse c0
    · -- the target lies inside the first child's span: short-circuit
      have hj : (t - b).toNat < (visRecords f c0 b sp (l ++ [rest.length])).length := by
        omega
      have hget : (visRecords f c0 b sp (l ++ [rest.length]))[(t - b).toNat]? =
          some ((visRecords f c0 b sp (l ++ [rest.length]))[(t - b).toNat]) :=
        List.getElem?_eq_getElem hj
      have ht' : t = b + ((t - b).toNat : Int) := by omega
      have hfound := gnd_found f c0 b sp (l ++ [rest.length]) () (t - b).toNat _ hget
      rw [← ht'] at hfound
      rw [gndChildren]
      conv_rhs => rw [gndChildren]
      rw [gnd_keyLog f c0 b t sp (l ++ [rest.length]) log]
      rw [hfound]
      dsimp only
      rw [visRecordsList]
      rw [visitedUpTo_append_hit t _ _
        (visRecords_index_hit f c0 b sp (l ++ [rest.length]) t hhit.1 hhit.2)]
    · -- the first child's span is missed entirely: fall through to the rest
      have hmiss := gnd_miss f c0 b t sp (l ++ [rest.length]) () (by omega)
      have hnohit : ∀ r ∈ visRecords f c0 b sp (l ++ [rest.length]), r.treeIndex ≠ t := by
        intro r hr
        have := visRecords_index_bounds f c0 b sp (l ++ [rest.length]) r hr
        omega
      rw [gndChildren]
      conv_rhs => rw [gndChildren]
      rw [gnd_keyLog f c0 b t sp (l ++ [rest.length]) log]
      rw [hmiss]
      dsimp only
      rw [gndChildren_keyLog f rest (b + countTraverse c0) t sp l
        (log ++ (visitedUpTo t (visRecords f c0 b sp (l ++ [rest.length]))).map
          (fun r => (r.node, r.treeIndex)))]
      rw [visRecordsList]
      rw [visitedUpTo_append_noHit t _ _ hnohit]
      rw [visitedUpTo_all_noHit t _ hnohit]
      simp [List.map_append]
end

theorem keyedVisits_append {σ κ : Type} (cb : σ → WalkInfo κ → σ × Bool)
    (s : σ) (xs ys : List (WalkInfo κ)) :
    keyedVisits cb s (xs ++ ys) =
      keyedVisits cb s xs ++
        (if (runVisits cb s xs).2 = false then []
         else keyedVisits cb (runVisits cb s xs).1 ys) := by
  induction xs generalizing s with
  | nil => simp [keyedVisits, runVisits]
  | cons x rest ih =>
    rw [List.cons_append, keyedVisits, keyedVisits, runVisits]
    by_cases h : (cb s x).2 = false
    · simp [h]
    · simp only [h, if_false, Bool.false_eq_true, ite_false, List.cons_append]
      rw [ih (cb s x).1]
      simp

mutual
theorem walkDescendants_keyEvents {σ κ : Type} (f : Node → Int → κ)
    (cb : σ → WalkInfo κ → σ × Bool) (n : Node) (c : Int) (p : List κ)
    (l : List Nat) (log : List (KeyEvent κ)) (s : σ) :
    walkDescendants (keyEventKey f) (keyEventCallback cb) true false n c p l (log, s) =
      ((log ++ keyedVisits cb s (visRecords f n c p l),
        (runVisits cb s (visRecords f n c p l)).1),
       if (runVisits cb s (visRecords f n c p l)).2 = false then none
       else some (c + countTraverse n - 1)) := by
  rw [walkDescendants.eq_def]
  simp only [keyEventKey, keyEventCallback, Bool.false_eq_true, if_false, ite_false,
    visRecords, keyedVisits, runVisits]
  by_cases hcb : (cb s ⟨n, p ++ [f n c], l, c⟩).2 = false
  · simp [hcb]
  · simp only [hcb, if_false, Bool.false_eq_true, ite_false]
    rcases n with ⟨pl, e, _ | cs⟩
    · simp [visChildren, countTraverse, runVisits, keyedVisits]
    · by_cases he : e = some true
      · subst he
        simp only [ne_eq, not_true_eq_false, false_and, and_false, if_false, ite_false]
        rw [if_neg (by simp)]
        rw [walkChildren_keyEvents f cb cs c
          (p ++ [f (Node.mk pl (some true) (some cs)) c]) l
          (log ++ [KeyEvent.keyCall (Node.mk pl (some true) (some cs)) c] ++
            [KeyEvent.visit ⟨Node.mk pl (some true) (some cs),
              p ++ [f (Node.mk pl (some true) (some cs)) c], l, c⟩])
          (cb s ⟨Node.mk pl (some true) (some cs),
            p ++ [f (Node.mk pl (some true) (some cs)) c], l, c⟩).1]
        simp only [visChildren]
        have hct : countTraverse (Node.mk pl (some true) (some cs)) =
            1 + countTraverseList cs := by simp [countTraverse]
        rw [hct]
        simp only [Bool.true_eq_false, if_false, ite_false]
        simp only [Prod.mk.injEq]
        refine ⟨⟨by simp, trivial⟩, ?_⟩
        split
        · rfl
        · congr 1
          push_cast
          ring
      · have hct : countTraverse (Node.mk pl e (some cs)) = 1 := by
          simp [countTraverse, he]
        have hvc : visChildren f (Node.mk pl e (some cs)) c p l = [] := by
          rcases e with _ | _ | _ <;> simp_all [visChildren]
        simp [hct, hvc, runVisits, keyedVisits, hcb, he]

theorem walkChildren_keyEvents {σ κ : Type} (f : Node → Int → κ)
    (cb : σ → WalkInfo κ → σ × Bool) (cs : List Node) (b : Int) (p : List κ)
    (l : List Nat) (log : List (KeyEvent κ)) (s : σ) :
    walkChildren (keyEventKey f) (keyEventCallback cb) true cs b p l (log, s) =
      ((log ++ keyedVisits cb s (visRecordsList f cs (b + 1) p l),
        (runVisits cb s (visRecordsList f cs (b + 1) p l)).1),
       if (runVisits cb s (visRecordsList f cs (b + 1) p l)).2 = false then none
       else some (b + countTraverseList cs)) := by
  match cs with
  | [] => simp [walkChildren, visRecordsList, runVisits, keyedVisits, countTraverseList]
  | c0 :: rest =>
    rw [walkChildren]
    rw [walkDescendants_keyEvents f cb c0 (b + 1) p (l ++ [rest.length]) log s]
    rw [visRecordsList, runVisits_append cb s, keyedVisits_append cb s]
    simp only []
    by_cases h0 : (runVisits cb s (visRecords f c0 (b + 1) p (l ++ [rest.length]))).2 = false
    · simp [h0, countTraverseList]
    · rw [if_neg h0, if_neg h0]
      have hidx : b + 1 + (countTraverse c0 : Int) - 1 = b + (countTraverse c0 : Int) := by ring
      rw [hidx]
      dsimp only
      rw [walkChildren_keyEvents f cb rest (b + countTraverse c0) p l]
      rw [if_neg h0]
      have hidx2 : b + (countTraverse c0 : Int) + 1 = b + 1 + (countTraverse c0 : Int) := by ring
      rw [hidx2]
      simp only [List.append_assoc]
      by_cases h1 : (runVisits cb
          (runVisits cb s (visRecords f c0 (b + 1) p (l ++ [rest.length]))).1
          (visRecordsList f rest (b + 1 + (countTraverse c0 : Int)) p l)).2 = false
      · simp [h1]
      · rw [if_neg h1, if_neg h1]
        simp only [countTraverseList]
        simp [List.append_assoc]
        try push_cast
        try ring
end

/-- C8 (amended): in the callback walk — and hence in flattening — the key
function is called exactly once per visited node, immediately before that
node's callback invocation, with the node and its then-current linear index
(the trace is exactly `keyedVisits`); in index resolution it is called exactly
once per traversed node, in pre-order up to the target.  The original claim
fails for path-addressed mutation, where a rejected sibling is keyed twice
(see the counterexample). -/
theorem keyFn_called_once_per_visit {σ κ : Type} (f : Node → Int → κ)
    (cb : σ → WalkInfo κ → σ × Bool) (treeData : List Node) (s : σ) (t : Int)
    (ht : 0 ≤ t) :
    walkKeyEvents f cb treeData s = keyedVisits cb s (forestRecords f treeData) ∧
    atIndexKeyLog f treeData t =
      (visitedUpTo t (forestRecords f treeData)).map (fun r => (r.node, r.treeIndex)) := by
  constructor
  · by_cases hT : treeData = []
    · subst hT
      simp [walkKeyEvents, walk, forestRecords, visRecordsList, keyedVisits]
    · unfold walkKeyEvents walk
      rw [if_neg (by have h := List.length_pos.mpr hT; omega)]
      rw [walkDescendants.eq_def]
      simp only [if_true, Bool.true_eq_false, if_false, ite_false, ite_true]
      rw [walkChildren_keyEvents f cb treeData (-1) [] [] [] s]
      rw [show (-1 : Int) + 1 = 0 by ring]
      by_cases h : (runVisits cb s (visRecordsList f treeData 0 [] [])).2 = false
      · simp [h, forestRecords]
      · simp [h, forestRecords]
  · by_cases hT : treeData = []
    · subst hT
      simp [atIndexKeyLog, getVisibleNodeInfoAtIndex, forestRecords, visRecordsList,
        visitedUpTo]
    · unfold atIndexKeyLog getVisibleNodeInfoAtIndex
      rw [if_neg (by have h := List.length_pos.mpr hT; omega)]
      rw [getNodeDataAtTreeIndexOrNextIndex.eq_def]
      simp only [if_true]
      rw [if_neg (by omega)]
      simp only [Node.children, ne_eq, not_true_eq_false, and_false, if_false,
        Bool.true_eq_false, ite_false]
      rw [show (-1 : Int) + 1 = 0 by ring]
      rw [gndChildren_keyLog f treeData 0 t [] [] []]
      rcases (gndChildren (pureKey f) treeData 0 t [] [] ()).2 with info | j <;>
        simp [forestRecords]

/-- Witness for the amended C8 at a concrete one-node tree and index 0. -/
theorem keyFn_called_once_per_visit_witness :
    (0 : Int) ≤ 0 ∧
    (walkKeyEvents (fun n _ => n.payload) (fun (s : Unit) _ => (s, true))
        [Node.mk 1 none none] () =
      keyedVisits (fun (s : Unit) _ => (s, true)) ()
        (forestRecords (fun n _ => n.payload) [Node.mk 1 none none]) ∧
     atIndexKeyLog (fun n _ => n.payload) [Node.mk 1 none none] 0 =
      (visitedUpTo 0 (forestRecords (fun n _ => n.payload) [Node.mk 1 none none])).map
        (fun r => (r.node, r.treeIndex))) :=
  ⟨le_refl 0,
    keyFn_called_once_per_visit (fun n _ => n.payload) (fun (s : Unit) _ => (s, true))
      [Node.mk 1 none none] () 0 (le_refl 0)⟩

/-- C8 counterexample: in a single `changeNodeAtPath` pass over the two-root
tree `[{1}, {2}]` addressed by path `[2]`, the key function is called twice
with the rejected sibling (payload 1) at index 0 — once for the path
comparison and once inside the next-index re-derivation — so "exactly once
per node per traversal pass" fails for path-addressed mutation. -/
theorem keyFn_twice_on_rejected_sibling :
    (changeNodeAtPath
        (fun (log : List (Nat × Int)) n i => (log ++ [(n.payload, i)], n.payload))
        (.value .pnull) [Node.mk 1 none none, Node.mk 2 none none] [2] true []).1 =
      [(1, 0), (1, 0), (2, 1)] ∧
    ((changeNodeAtPath
        (fun (log : List (Nat × Int)) n i => (log ++ [(n.payload, i)], n.payload))
        (.value .pnull) [Node.mk 1 none none, Node.mk 2 none none] [2] true []).1).count
      ((1 : Nat), (0 : Int)) = 2 :=
  ⟨rfl, rfl⟩

theorem rebuildKsList_shift (v : ProducerVal) (parent : Node) (csAll : List Node)
    (i : Nat) (c0 : Node) (others : List Node) (p : Nat) (ks : List Nat) :
    rebuildKsList v parent csAll i (c0 :: others) ((p + 1) :: ks) =
      rebuildKsList v parent csAll (i + 1) others (p :: ks) := by
  rw [rebuildKsList, rebuildKsList]
  simp only [List.getElem?_cons_succ]
  have harith : i + (p + 1) = (i + 1) + p := by omega
  rw [harith]

theorem rebuildKs_glue (v : ProducerVal) (pl : Nat) (e : Option Bool)
    (cs : List Node) (p : Nat) (ks : List Nat) :
    rebuildKs v (Node.mk pl e (some cs)) (p :: ks) =
      rebuildKsList v (Node.mk pl e (some cs)) cs 0 cs (p :: ks) := by
  rw [rebuildKs, rebuildKsList]
  simp [Node.children]

theorem rebuildKs_pmiss (n : Node) (ks : List Nat) :
    rebuildKs .pmiss n ks = .missR := by
  induction ks generalizing n with
  | nil => simp [rebuildKs, travOfProd]
  | cons p ks ih =>
    rw [rebuildKs]
    rcases n with ⟨pl, e, _ | cs⟩
    · simp [Node.children]
    · simp only [Node.children]
      match h : cs[p]? with
      | none => simp
      | some ch => simp [ih ch]

theorem rebuildKsList_pmiss (parent : Node) (csAll : List Node) (i : Nat)
    (remaining : List Node) (ks : List Nat) :
    rebuildKsList .pmiss parent csAll i remaining ks = .missR := by
  match ks with
  | [] => rw [rebuildKsList]
  | p :: ks =>
    rw [rebuildKsList]
    match h : remaining[p]? with
    | none => simp
    | some ch => simp [rebuildKs_pmiss]

/-- With uniqueness, a key matching one sibling matches no other: a scan for
it among nodes that can never produce it misses. -/
theorem lookupList_noMatch {κ : Type} [DecidableEq κ] (f : Node → Int → κ)
    (cs : List Node) (idx : Int) (k : κ) (rest : List κ)
    (h : ∀ x ∈ cs, ∀ a : Int, f x a ≠ k) :
    lookupList f cs idx k rest = .missing := by
  induction cs generalizing idx with
  | nil => rw [lookupList]
  | cons c0 others ih =>
    rw [lookupList]
    rw [if_neg (h c0 (by simp) idx)]
    rw [ih (idx + countTraverse c0) (fun x hx a => h x (by simp [hx]) a)]
    rfl

theorem shift_found (m : Node) (t : Int) (p : Nat) (ks : List Nat) :
    LookupRes.shift (.found m t (p :: ks)) = .found m t ((p + 1) :: ks) := rfl

theorem shift_missing : LookupRes.shift .missing = .missing := rfl

theorem shift_structErr : LookupRes.shift .structErr = .structErr := rfl

theorem lookupList_found_cons {κ : Type} [DecidableEq κ] (f : Node → Int → κ)
    (cs : List Node) (idx : Int) (k : κ) (rest : List κ) (m : Node) (t : Int)
    (ks : List Nat) (h : lookupList f cs idx k rest = .found m t ks) :
    ∃ p ks', ks = p :: ks' := by
  induction cs generalizing idx m t ks with
  | nil => rw [lookupList] at h; exact absurd h (by simp)
  | cons c0 others ih =>
    rw [lookupList] at h
    by_cases hm : f c0 idx = k
    · rw [if_pos hm] at h
      match h2 : lookupNode f c0 idx rest with
      | .found m' t' ks' => rw [h2] at h; simp at h; exact ⟨0, ks', h.2.2.symm⟩
      | .missing => rw [h2] at h; simp at h
      | .structErr => rw [h2] at h; simp at h
    · rw [if_neg hm] at h
      match h2 : lookupList f others (idx + countTraverse c0) k rest with
      | .found m' t' ks' =>
        obtain ⟨p, ks'', rfl⟩ := ih (idx + countTraverse c0) m' t' ks' h2
        rw [h2] at h
        simp [LookupRes.shift] at h
        exact ⟨p + 1, ks'', h.2.2.symm⟩
      | .missing => rw [h2] at h; simp [LookupRes.shift] at h
      | .structErr => rw [h2] at h; simp [LookupRes.shift] at h

theorem jsElem_natCast {κ : Type} (P : List κ) (d : Nat) :
    jsElem P (d : Int) = P[d]? := by
  simp [jsElem]

mutual
theorem chTraverse_char {σ κ : Type} [DecidableEq κ] (f : Node → Int → κ)
    (newNode : NewNodeArg σ) (P : List κ) (n : Node) (c : Int) (d : Nat) (s : σ)
    (hc : -1 ≤ c) (hU : KeysUniqN f n) :
    chTraverse (pureKey f) newNode P true false n c (d : Int) s =
      (if P[d]? = some (f n c) then
        match lookupNode f n c (P.drop (d + 1)) with
        | .found m t ks =>
            ((applyNewNode newNode s m t).1,
             .ok (rebuildKs (applyNewNode newNode s m t).2 n ks))
        | .missing => (s, .ok .missR)
        | .structErr => (s, .error .childless)
      else (s, .ok .missR)) := by
  rw [chTraverse.eq_def]
  simp only [pureKey, Bool.false_eq_true, if_false, ite_false, jsElem_natCast]
  by_cases hkey : P[d]? = some (f n c)
  · rw [if_neg (by simp [hkey])]
    rw [if_pos hkey]
    by_cases hterm : (d : Int) ≥ (P.length : Int) - 1
    · rw [if_pos hterm]
      have hdrop : P.drop (d + 1) = [] := List.drop_eq_nil_of_le (by omega)
      rw [hdrop, lookupNode]
      rfl
    · rw [if_neg hterm]
      have hd1 : d + 1 < P.length := by omega
      have hdrop : P.drop (d + 1) = P[d + 1] :: P.drop (d + 2) :=
        List.drop_eq_getElem_cons hd1
      rcases n with ⟨pl, e, _ | cs⟩
      · rw [hdrop, lookupNode]
      · rw [hdrop, lookupNode]
        dsimp only
        have hcast : ((d : Nat) : Int) = ((d + 1 : Nat) : Int) - 1 := by push_cast; ring
        rw [hcast]
        rw [chChildren_char f newNode P (Node.mk pl e (some cs)) cs 0 cs (c + 1)
          (d + 1) s P[d + 1] (List.getElem?_eq_getElem hd1) (by omega)
          hU.1 hU.2]
        match hlk : lookupList f cs (c + 1) P[d + 1] (P.drop (d + 2)) with
        | .found m t ks =>
          obtain ⟨p, ks', rfl⟩ := lookupList_found_cons f cs (c + 1) P[d + 1]
            (P.drop (d + 2)) m t ks hlk
          dsimp only
          rw [rebuildKs_glue]
        | .missing => rfl
        | .structErr => rfl
  · rw [if_pos (by simp [hkey])]
    rw [if_neg hkey]

theorem chChildren_char {σ κ : Type} [DecidableEq κ] (f : Node → Int → κ)
    (newNode : NewNodeArg σ) (P : List κ) (parent : Node) (csAll : List Node)
    (i : Nat) (remaining : List Node) (b : Int) (e : Nat) (s : σ) (k : κ)
    (hk : P[e]? = some k) (hb : 0 ≤ b)
    (hpw : PairwiseKeysNe f remaining) (hUL : KeysUniqL f remaining) :
    chChildren (pureKey f) newNode P true parent i csAll remaining b ((e : Int) - 1) s =
      (match lookupList f remaining b k (P.drop (e + 1)) with
       | .found m t ks =>
           ((applyNewNode newNode s m t).1,
            .ok (rebuildKsList (applyNewNode newNode s m t).2 parent csAll i remaining ks))
       | .missing => (s, .ok .missR)
       | .structErr => (s, .error .childless)) := by
  match remaining with
  | [] =>
    rw [chChildren, lookupList]
  | c0 :: others =>
    obtain ⟨hpw0, hpwR⟩ := List.pairwise_cons.mp hpw
    rw [chChildren]
    rw [show ((e : Int) - 1 + 1) = ((e : Nat) : Int) by ring]
    rw [chTraverse_char f newNode P c0 b e s (by omega) hUL.1]
    rw [lookupList]
    by_cases hmatch : f c0 b = k
    · rw [if_pos (by rw [hk, hmatch])]
      rw [if_pos hmatch]
      match hlo : lookupNode f c0 b (P.drop (e + 1)) with
      | .found m t ks =>
        match hrb : rebuildKs (applyNewNode newNode s m t).2 c0 ks with
        | .nodeR nd =>
          simp only [hrb]
          rw [rebuildKsList]
          simp only [List.getElem?_cons_zero, hrb]
          rw [show i + 0 = i by omega]
        | .falsyR =>
          simp only [hrb]
          rw [rebuildKsList]
          simp only [List.getElem?_cons_zero, hrb]
          rw [show i + 0 = i by omega]
        | .missR =>
          simp only [hrb]
          rw [gnd_miss f c0 b (-1) [] [] (applyNewNode newNode s m t).1 (by omega)]
          rw [GRes.nextIdxD]
          rw [chChildren_char f newNode P parent csAll (i + 1) others
            (b + countTraverse c0) e (applyNewNode newNode s m t).1 k hk
            (by have := countTraverse_pos c0; omega) hpwR hUL.2]
          rw [lookupList_noMatch f others (b + countTraverse c0) k (P.drop (e + 1))
            (fun x hx a h => (hpw0 x hx b a) (h.symm ▸ hmatch))]
          rw [rebuildKsList]
          simp only [List.getElem?_cons_zero, hrb]
      | .missing =>
        dsimp only
        rw [gnd_miss f c0 b (-1) [] [] s (by omega)]
        rw [GRes.nextIdxD]
        rw [chChildren_char f newNode P parent csAll (i + 1) others
          (b + countTraverse c0) e s k hk
          (by have := countTraverse_pos c0; omega) hpwR hUL.2]
        rw [lookupList_noMatch f others (b + countTraverse c0) k (P.drop (e + 1))
          (fun x hx a h => (hpw0 x hx b a) (h.symm ▸ hmatch))]
      | .structErr => rfl
    · rw [if_neg (by
        rw [hk]
        intro hcon
        exact hmatch (Option.some.injEq _ _ ▸ hcon).symm)]
      rw [if_neg hmatch]
      dsimp only
      rw [gnd_miss f c0 b (-1) [] [] s (by omega)]
      rw [GRes.nextIdxD]
      rw [chChildren_char f newNode P parent csAll (i + 1) others
        (b + countTraverse c0) e s k hk
        (by have := countTraverse_pos c0; omega) hpwR hUL.2]
      match hlk : lookupList f others (b + countTraverse c0) k (P.drop (e + 1)) with
      | .found m t ks =>
        obtain ⟨p, ks', rfl⟩ := lookupList_found_cons f others (b + countTraverse c0)
          k (P.drop (e + 1)) m t ks hlk
        rw [shift_found]
        dsimp only
        rw [rebuildKsList_shift]
      | .missing => rw [shift_missing]
      | .structErr => rw [shift_structErr]
end


theorem changeNodeAtPath_char {σ κ : Type} [DecidableEq κ] (f : Node → Int → κ)
    (newNode : NewNodeArg σ) (T : List Node) (k : κ) (rest : List κ) (s : σ)
    (hU : KeysUniqF f T) :
    changeNodeAtPath (pureKey f) newNode T (k :: rest) true s =
      (match lookupList f T 0 k rest with
       | .found m t ks =>
           ((applyNewNode newNode s m t).1,
            match rebuildKsList (applyNewNode newNode s m t).2
                (Node.mk 0 none (some T)) T 0 T ks with
            | .missR => .error .noNode
            | .nodeR nd => .ok nd.children
            | .falsyR => .error .typeErr)
       | .missing => (s, .error .noNode)
       | .structErr => (s, .error .childless)) := by
  unfold changeNodeAtPath
  rw [chTraverse.eq_def]
  simp only [if_true, ite_true, Bool.true_eq_false, if_false, ite_false]
  rw [if_neg (by
    simp only [List.length_cons]
    push_cast
    omega)]
  rw [show (-1 : Int) + 1 = ((0 : Nat) : Int) by ring]
  rw [show (-1 : Int) = ((0 : Nat) : Int) - 1 by ring]
  rw [chChildren_char f newNode (k :: rest) (Node.mk 0 none (some T)) T 0 T
    ((0 : Nat) : Int) 0 s k (by simp) (by simp) hU.1 hU.2]
  rw [show (0 : Nat) + 1 = 1 by omega]
  rw [show (k :: rest).drop 1 = rest from rfl]
  rw [show (((0 : Nat) : Int)) = (0 : Int) by simp]
  match hlk : lookupList f T 0 k rest with
  | .found m t ks =>
    dsimp only
    match hrb : rebuildKsList (applyNewNode newNode s m t).2
        (Node.mk 0 none (some T)) T 0 T ks with
    | .missR => rfl
    | .nodeR nd => rfl
    | .falsyR => rfl
  | .missing => rfl
  | .structErr => rfl

/-- C3: with sibling-unique keys, `changeNodeAtPath` (and `removeNodeAtPath`,
which is `changeNodeAtPath` with `newNode = null`) raises the hard failure
`'No node found at the given path.'` whenever the key path matches no node,
and `'Path referenced children of node with no children.'` whenever the path
continues past a childless node; in both failures the state is returned
unchanged and — the embedding being a pure function of the input tree — the
original tree value is untouched and still observable by the caller. -/
theorem changeNodeAtPath_hard_failures {σ κ : Type} [DecidableEq κ]
    (f : Node → Int → κ) (newNode : NewNodeArg σ) (T : List Node) (k : κ)
    (rest : List κ) (s : σ) (hU : KeysUniqF f T) :
    (lookupList f T 0 k rest = .missing →
      changeNodeAtPath (pureKey f) newNode T (k :: rest) true s = (s, .error .noNode)) ∧
    (lookupList f T 0 k rest = .structErr →
      changeNodeAtPath (pureKey f) newNode T (k :: rest) true s = (s, .error .childless)) ∧
    removeNodeAtPath (pureKey f) T (k :: rest) true s =
      changeNodeAtPath (pureKey f) (.value .pnull) T (k :: rest) true s := by
  refine ⟨?_, ?_, rfl⟩
  · intro h
    rw [changeNodeAtPath_char f newNode T k rest s hU, h]
  · intro h
    rw [changeNodeAtPath_char f newNode T k rest s hU, h]

/-- C10: on a key path that does exist (the spec-side lookup finds a node),
a producer returning the exact string `'RESULT_MISS'` collides with the
internal sentinel: the replacement is not installed and `changeNodeAtPath`
raises `'No node found at the given path.'`. -/
theorem resultMiss_sentinel_collision {σ κ : Type} [DecidableEq κ]
    (f : Node → Int → κ) (T : List Node) (k : κ) (rest : List κ) (s : σ)
    (m : Node) (t : Int) (ks : List Nat) (hU : KeysUniqF f T)
    (hfound : lookupList f T 0 k rest = .found m t ks) :
    changeNodeAtPath (pureKey f) (.fn (fun s' _ _ => (s', .pmiss))) T
      (k :: rest) true s = (s, .error .noNode) := by
  rw [changeNodeAtPath_char f (.fn (fun s' _ _ => (s', .pmiss))) T k rest s hU, hfound]
  dsimp only [applyNewNode]
  rw [rebuildKsList_pmiss]

theorem shiftInfo_shiftInfo {κ : Type} (p1 p2 : List κ) (l1 l2 : List Nat)
    (r : WalkInfo κ) :
    shiftInfo p1 l1 (shiftInfo p2 l2 r) = shiftInfo (p1 ++ p2) (l1 ++ l2) r := by
  simp [shiftInfo]

mutual
theorem visRecords_shift {κ : Type} (f : Node → Int → κ) (n : Node) (c : Int)
    (p : List κ) (l : List Nat) :
    visRecords f n c p l = (visRecords f n c [] []).map (shiftInfo p l) := by
  rw [visRecords, visRecords]
  rw [List.map_cons]
  congr 1
  · simp [shiftInfo]
  · rcases n with ⟨pl, e, _ | cs⟩
    · rcases e with _ | _ | _ <;> simp [visChildren]
    · by_cases he : e = some true
      · subst he
        rw [visChildren, visChildren]
        rw [visRecordsList_shift f cs (c + 1)
          (p ++ [f (Node.mk pl (some true) (some cs)) c]) l]
        rw [visRecordsList_shift f cs (c + 1)
          ([] ++ [f (Node.mk pl (some true) (some cs)) c]) []]
        rw [List.map_map]
        congr 1
        funext r
        simp only [Function.comp_apply, shiftInfo_shiftInfo]
        congr 1
        simp
      · have h1 : visChildren f (Node.mk pl e (some cs)) c p l = [] := by
          rcases e with _ | _ | _ <;> simp_all [visChildren]
        have h2 : visChildren f (Node.mk pl e (some cs)) c [] [] = [] := by
          rcases e with _ | _ | _ <;> simp_all [visChildren]
        rw [h1, h2]
        simp

theorem visRecordsList_shift {κ : Type} (f : Node → Int → κ) (cs : List Node)
    (c : Int) (p : List κ) (l : List Nat) :
    visRecordsList f cs c p l = (visRecordsList f cs c [] []).map (shiftInfo p l) := by
  match cs with
  | [] => simp [visRecordsList]
  | n :: rest =>
    rw [visRecordsList, visRecordsList]
    rw [List.map_append]
    congr 1
    · rw [visRecords_shift f n c p (l ++ [rest.length])]
      rw [visRecords_shift f n c [] ([] ++ [rest.length])]
      rw [List.map_map]
      congr 1
      funext r
      simp only [Function.comp_apply, shiftInfo_shiftInfo]
      congr 1
      simp
    · rw [visRecordsList_shift f rest (c + countTraverse n) p l]
end


/-- Every record of a subtree's reference list (relative form) carries a path
headed by the subtree root's own key. -/
theorem visRecords_path_head {κ : Type} (f : Node → Int → κ) (n : Node)
    (c : Int) (r : WalkInfo κ) (hr : r ∈ visRecords f n c [] []) :
    ∃ q, r.path = f n c :: q := by
  rw [visRecords] at hr
  rcases List.mem_cons.mp hr with hr | hr
  · exact ⟨[], by simp [hr]⟩
  · rcases n with ⟨pl, e, _ | cs⟩
    · simp [visChildren] at hr
    · rcases e with _ | _ | _
      · simp [visChildren] at hr
      · simp [visChildren] at hr
      · rw [visChildren] at hr
        rw [visRecordsList_shift f cs (c + 1)
          ([] ++ [f (Node.mk pl (some true) (some cs)) c]) []] at hr
        obtain ⟨r0, _, rfl⟩ := List.mem_map.mp hr
        exact ⟨r0.path, by simp [shiftInfo]⟩

mutual
theorem lookupNode_of_visRecord {κ : Type} [DecidableEq κ] (f : Node → Int → κ)
    (n : Node) (c : Int) (j : Nat) (r : WalkInfo κ) (hU : KeysUniqN f n)
    (hr : (visRecords f n c [] [])[j]? = some r) :
    ∃ ks, lookupNode f n c (r.path.drop 1) = .found r.node (c + j) ks := by
  match j with
  | 0 =>
    rw [visRecords] at hr
    simp only [List.getElem?_cons_zero, Option.some.injEq] at hr
    refine ⟨[], ?_⟩
    rw [← hr]
    simp [lookupNode]
  | j + 1 =>
    rw [visRecords] at hr
    simp only [List.getElem?_cons_succ] at hr
    rcases n with ⟨pl, e, _ | cs⟩
    · simp [visChildren] at hr
    · rcases e with _ | _ | _
      · simp [visChildren] at hr
      · simp [visChildren] at hr
      · rw [visChildren] at hr
        rw [visRecordsList_shift f cs (c + 1)
          ([] ++ [f (Node.mk pl (some true) (some cs)) c]) []] at hr
        rw [List.getElem?_map] at hr
        match hr0 : (visRecordsList f cs (c + 1) [] [])[j]? with
        | none => rw [hr0] at hr; simp at hr
        | some r0 =>
          rw [hr0] at hr
          simp only [Option.map_some', Option.some.injEq] at hr
          obtain ⟨k0, restP, ks, x, a, hpath, hmem, hkey, hlook⟩ :=
            lookupList_of_visRecord f cs (c + 1) j r0 hU.1 hU.2 hr0
          refine ⟨ks, ?_⟩
          have hrpath : r.path =
              f (Node.mk pl (some true) (some cs)) c :: r0.path := by
            rw [← hr]; simp [shiftInfo]
          have hrnode : r.node = r0.node := by rw [← hr]; simp [shiftInfo]
          rw [hrpath, hrnode]
          simp only [List.drop_succ_cons, List.drop_zero]
          rw [hpath, lookupNode]
          rw [hlook]
          congr 1
          push_cast
          ring

theorem lookupList_of_visRecord {κ : Type} [DecidableEq κ] (f : Node → Int → κ)
    (cs : List Node) (b : Int) (j : Nat) (r : WalkInfo κ)
    (hpw : PairwiseKeysNe f cs) (hUL : KeysUniqL f cs)
    (hr : (visRecordsList f cs b [] [])[j]? = some r) :
    ∃ k0 restP ks x a, r.path = k0 :: restP ∧ x ∈ cs ∧ k0 = f x (a : Int) ∧
      lookupList f cs b k0 restP = .found r.node (b + j) ks := by
  match cs with
  | [] => simp [visRecordsList] at hr
  | c0 :: others =>
    obtain ⟨hpw0, hpwR⟩ := List.pairwise_cons.mp hpw
    rw [visRecordsList] at hr
    have hlen : (visRecords f c0 b [] ([] ++ [others.length])).length = countTraverse c0 :=
      visRecords_length f c0 b [] ([] ++ [others.length])
    by_cases hj : j < (visRecords f c0 b [] ([] ++ [others.length])).length
    · rw [List.getElem?_append_left hj] at hr
      rw [visRecords_shift f c0 b [] ([] ++ [others.length])] at hr
      rw [List.getElem?_map] at hr
      match hr0 : (visRecords f c0 b [] [])[j]? with
      | none => rw [hr0] at hr; simp at hr
      | some r0 =>
        rw [hr0] at hr
        simp only [Option.map_some', Option.some.injEq] at hr
        obtain ⟨ks, hlook⟩ := lookupNode_of_visRecord f c0 b j r0 hUL.1 hr0
        have hmem : r0 ∈ visRecords f c0 b [] [] := List.getElem?_mem hr0
        obtain ⟨q, hq⟩ := visRecords_path_head f c0 b r0 hmem
        refine ⟨f c0 b, q, 0 :: ks, c0, b, ?_, by simp, rfl, ?_⟩
        · rw [← hr]; simp [shiftInfo, hq]
        · rw [lookupList, if_pos rfl]
          have hlook2 : lookupNode f c0 b q = .found r0.node (b + j) ks := by
            rw [hq] at hlook
            simpa using hlook
          rw [hlook2]
          have hrnode : r.node = r0.node := by rw [← hr]; simp [shiftInfo]
          rw [hrnode]
    · rw [List.getElem?_append_right (le_of_not_lt hj)] at hr
      obtain ⟨k0, restP, ks, x, a, hpath, hmem, hkey, hlook⟩ :=
        lookupList_of_visRecord f others (b + countTraverse c0)
          (j - (visRecords f c0 b [] ([] ++ [others.length])).length) r hpwR hUL.2 hr
      obtain ⟨p, ks', rfl⟩ := lookupList_found_cons f others (b + countTraverse c0)
        k0 restP r.node _ ks hlook
      have hne : f c0 b ≠ k0 := by
        rw [hkey]
        exact hpw0 x hmem b a
      have hidx : (b + (countTraverse c0 : Int)) +
          ((j - (visRecords f c0 b [] ([] ++ [others.length])).length : Nat) : Int) =
          b + (j : Int) := by
        rw [hlen] at hj ⊢
        omega
      refine ⟨k0, restP, (p + 1) :: ks', x, a, hpath, by simp [hmem], hkey, ?_⟩
      rw [lookupList, if_neg hne, hlook, shift_found, hidx]
end


/-- C1: for a pure key function with sibling-unique keys, feeding the path
returned by `getVisibleNodeInfoAtIndex` at visible index `i` back into
`changeNodeAtPath` invokes the node-producer exactly once — the producer-call
log grows by exactly one entry — on exactly the node the lookup returned,
with `treeIndex` equal to `i`; this holds whatever value `V` the producer
returns. -/
theorem roundTrip_changeNodeAtPath {κ : Type} [DecidableEq κ] (f : Node → Int → κ)
    (T : List Node) (i : Nat) (r : NodeInfo κ) (V : ProducerVal)
    (log : List (Node × Int)) (hU : KeysUniqF f T)
    (hr : atIndexP f T i = some r) :
    (changeNodeAtPath (pureKey f)
        (.fn (fun lg nd t => (lg ++ [(nd, t)], V))) T r.path true log).1 =
      log ++ [(r.node, (i : Int))] := by
  by_cases hi : i < getVisibleNodeCount T
  · have hlen : i < (forestRecords f T).length := by
      rw [forestRecords_length]; exact hi
    have hget : (forestRecords f T)[i]? = some ((forestRecords f T)[i]) :=
      List.getElem?_eq_getElem hlen
    have hfound := atIndexP_found f T i ((forestRecords f T)[i]) hget
    rw [hfound] at hr
    obtain rfl : r = ⟨((forestRecords f T)[i]).node,
        ((forestRecords f T)[i]).lowerSiblingCounts,
        ((forestRecords f T)[i]).path⟩ := by
      exact (Option.some.injEq _ _ ▸ hr).symm
    obtain ⟨k0, restP, ks, x, a, hpath, hmem, hkey, hlook⟩ :=
      lookupList_of_visRecord f T 0 i ((forestRecords f T)[i]) hU.1 hU.2 hget
    simp only []
    rw [hpath]
    rw [changeNodeAtPath_char f (.fn (fun lg nd t => (lg ++ [(nd, t)], V))) T
      k0 restP log hU]
    rw [hlook]
    simp [applyNewNode]
  · rw [atIndexP_miss f T i (by omega)] at hr
    exact absurd hr (by simp)

/-- Witness for C1 on the spec §8 example tree at index 2. -/
theorem roundTrip_changeNodeAtPath_witness :
    (KeysUniqF (fun n (_ : Int) => n.payload)
        [Node.mk 1 (some true) (some [Node.mk 2 none none, Node.mk 3 none none]),
         Node.mk 4 none none] ∧
      atIndexP (fun n (_ : Int) => n.payload)
        [Node.mk 1 (some true) (some [Node.mk 2 none none, Node.mk 3 none none]),
         Node.mk 4 none none] 2 = some ⟨Node.mk 3 none none, [1, 0], [1, 3]⟩) ∧
    (changeNodeAtPath (pureKey (fun n (_ : Int) => n.payload))
        (.fn (fun lg nd t => (lg ++ [(nd, t)], ProducerVal.pnode (Node.mk 9 none none))))
        [Node.mk 1 (some true) (some [Node.mk 2 none none, Node.mk 3 none none]),
         Node.mk 4 none none] [1, 3] true []).1 =
      [] ++ [(Node.mk 3 none none, (2 : Int))] := by
  have hU : KeysUniqF (fun n (_ : Int) => n.payload)
      [Node.mk 1 (some true) (some [Node.mk 2 none none, Node.mk 3 none none]),
       Node.mk 4 none none] := by
    constructor
    · refine List.pairwise_cons.mpr ⟨?_, List.pairwise_cons.mpr ⟨?_, List.Pairwise.nil⟩⟩
      · intro y hy a b
        simp at hy
        subst hy
        simp [Node.payload]
      · intro y hy
        simp at hy
    · refine ⟨⟨?_, ?_⟩, ⟨trivial, trivial⟩⟩
      · refine List.pairwise_cons.mpr ⟨?_, List.pairwise_cons.mpr ⟨?_, List.Pairwise.nil⟩⟩
        · intro y hy a b
          simp at hy
          subst hy
          simp [Node.payload]
        · intro y hy
          simp at hy
      · exact ⟨trivial, trivial, trivial⟩
  exact ⟨⟨hU, rfl⟩,
    roundTrip_changeNodeAtPath (fun n (_ : Int) => n.payload) _ 2
      ⟨Node.mk 3 none none, [1, 0], [1, 3]⟩ (ProducerVal.pnode (Node.mk 9 none none))
      [] hU rfl⟩

theorem sharedOutsideEdit_offPath (cs cs' : List Node)
    (h : SharedOutsideEdit cs cs') :
    ∃ kp : Nat, cs'.length = cs.length ∧ ∀ j : Nat, j ≠ kp → cs'[j]? = cs[j]? := by
  cases h with
  | terminal cs kp nd =>
    refine ⟨kp, List.length_set cs kp nd, fun j hj => ?_⟩
    exact List.getElem?_set_ne (by omega)
  | deeper cs kp n cc cc' hk hch hrec =>
    refine ⟨kp, List.length_set cs kp _, fun j hj => ?_⟩
    exact List.getElem?_set_ne (by omega)

mutual
theorem lookupNode_ksValid {κ : Type} [DecidableEq κ] (f : Node → Int → κ)
    (n : Node) (c : Int) (rest : List κ) (m : Node) (t : Int) (ks : List Nat)
    (h : lookupNode f n c rest = .found m t ks) : KsValid n ks := by
  match rest with
  | [] =>
    rw [lookupNode] at h
    simp only [LookupRes.found.injEq] at h
    rw [← h.2.2]
    rw [KsValid]
    trivial
  | k :: rest =>
    rw [lookupNode.eq_def] at h
    dsimp only at h
    rcases n with ⟨pl, e, _ | cs⟩
    · simp at h
    · dsimp only at h
      obtain ⟨p, ks', rfl⟩ := lookupList_found_cons f cs (c + 1) k rest m t ks h
      obtain ⟨ch, hch, hv⟩ := lookupList_ksValid f cs (c + 1) k rest m t p ks' h
      rw [KsValid]
      simp only [Node.children, hch]
      exact hv

theorem lookupList_ksValid {κ : Type} [DecidableEq κ] (f : Node → Int → κ)
    (cs : List Node) (b : Int) (k : κ) (rest : List κ) (m : Node) (t : Int)
    (p : Nat) (ks' : List Nat)
    (h : lookupList f cs b k rest = .found m t (p :: ks')) :
    ∃ ch, cs[p]? = some ch ∧ KsValid ch ks' := by
  match cs with
  | [] => rw [lookupList] at h; exact absurd h (by simp)
  | c0 :: others =>
    rw [lookupList] at h
    by_cases hm : f c0 b = k
    · rw [if_pos hm] at h
      match h2 : lookupNode f c0 b rest with
      | .found m' t' ks0 =>
        rw [h2] at h
        simp only [LookupRes.found.injEq, List.cons.injEq] at h
        obtain ⟨hm', ht', hp, hks⟩ := h
        refine ⟨c0, ?_, ?_⟩
        · rw [← hp]; simp
        · rw [← hks]
          exact lookupNode_ksValid f c0 b rest m' t' ks0 h2
      | .missing => rw [h2] at h; simp at h
      | .structErr => rw [h2] at h; simp at h
    · rw [if_neg hm] at h
      match h2 : lookupList f others (b + countTraverse c0) k rest with
      | .found m' t' ks0 =>
        obtain ⟨p0, ks0', rfl⟩ := lookupList_found_cons f others
          (b + countTraverse c0) k rest m' t' ks0 h2
        rw [h2, shift_found] at h
        simp only [LookupRes.found.injEq, List.cons.injEq] at h
        obtain ⟨hm', ht', hp, hks⟩ := h
        obtain ⟨ch, hch, hv⟩ := lookupList_ksValid f others
          (b + countTraverse c0) k rest m' t' p0 ks0' h2
        refine ⟨ch, ?_, ?_⟩
        · rw [← hp]
          simpa using hch
        · rw [← hks]
          exact hv
      | .missing => rw [h2, shift_missing] at h; simp at h
      | .structErr => rw [h2, shift_structErr] at h; simp at h
end


theorem rebuildKs_pnode_shared (nd : Node) (ks : List Nat) : ∀ (n : Node),
    KsValid n ks →
    (ks = [] → rebuildKs (.pnode nd) n ks = .nodeR nd) ∧
    (∀ kp ks', ks = kp :: ks' → ∃ cs cc', n.children = some cs ∧
      SharedOutsideEdit cs cc' ∧
      rebuildKs (.pnode nd) n ks = .nodeR (n.withChildren cc')) := by
  induction ks with
  | nil =>
    intro n _
    exact ⟨fun _ => by rw [rebuildKs]; rfl, fun kp ks' h => by simp at h⟩
  | cons kp ks' ih =>
    intro n hv
    refine ⟨fun h => by simp at h, fun kp2 ks2 h => ?_⟩
    obtain ⟨h1, h2⟩ := (List.cons.injEq _ _ _ _).mp h
    subst h1
    subst h2
    rw [KsValid] at hv
    match hch : n.children with
    | none => simp only [hch] at hv
    | some cs =>
      simp only [hch] at hv
      match hget : cs[kp]? with
      | none => simp only [hget] at hv
      | some ch =>
        simp only [hget] at hv
        match ks' with
        | [] =>
          refine ⟨cs, cs.set kp nd, rfl, SharedOutsideEdit.terminal cs kp nd, ?_⟩
          rw [rebuildKs, hch]
          dsimp only
          rw [hget]
          dsimp only
          rw [show rebuildKs (.pnode nd) ch [] = .nodeR nd from by rw [rebuildKs]; rfl]
        | kp3 :: ks3 =>
          obtain ⟨cs2, cc2, hch2, hshared2, hrb2⟩ :=
            (ih ch hv).2 kp3 ks3 rfl
          refine ⟨cs, cs.set kp (ch.withChildren cc2), rfl,
            SharedOutsideEdit.deeper cs kp ch cs2 cc2 hget hch2 hshared2, ?_⟩
          rw [rebuildKs, hch]
          dsimp only
          rw [hget]
          dsimp only
          rw [hrb2]

theorem rebuildKsList_pnode_shared (nd : Node) (parent : Node) (T : List Node)
    (p : Nat) (ks' : List Nat) (ch : Node) (hch : T[p]? = some ch)
    (hv : KsValid ch ks') :
    ∃ cc', SharedOutsideEdit T cc' ∧ (∃ x, cc' = T.set p x) ∧
      rebuildKsList (.pnode nd) parent T 0 T (p :: ks') =
        .nodeR (parent.withChildren cc') := by
  match ks' with
  | [] =>
    refine ⟨T.set p nd, SharedOutsideEdit.terminal T p nd, ⟨nd, rfl⟩, ?_⟩
    rw [rebuildKsList, hch]
    dsimp only
    rw [show rebuildKs (.pnode nd) ch [] = .nodeR nd from by rw [rebuildKs]; rfl]
    simp
  | kp3 :: ks3 =>
    obtain ⟨cs2, cc2, hch2, hshared2, hrb2⟩ :=
      (rebuildKs_pnode_shared nd (kp3 :: ks3) ch hv).2 kp3 ks3 rfl
    refine ⟨T.set p (ch.withChildren cc2),
      SharedOutsideEdit.deeper T p ch cs2 cc2 hch hch2 hshared2,
      ⟨ch.withChildren cc2, rfl⟩, ?_⟩
    rw [rebuildKsList, hch]
    dsimp only
    rw [hrb2]
    simp

/-- C6: replacing the node at a path obtained from the index lookup rebuilds
only the ancestor chain along that path: the resulting root list differs from
the original in exactly one slot, and recursively (through
`SharedOutsideEdit`) each rebuilt ancestor keeps its payload and `expanded`
flag and differs only in one child slot, every sibling subtree off the path
being passed through unchanged as a value. -/
theorem changeNodeAtPath_structuralSharing {κ : Type} [DecidableEq κ]
    (f : Node → Int → κ) (T : List Node) (i : Nat) (r : NodeInfo κ) (nd : Node)
    (hU : KeysUniqF f T) (hr : atIndexP f T i = some r) :
    ∃ T' : List Node, ∃ kp : Nat,
      changeP f (.value (.pnode nd)) T r.path = .ok (some T') ∧
      SharedOutsideEdit T T' ∧ T'.length = T.length ∧
      ∀ j : Nat, j ≠ kp → T'[j]? = T[j]? := by
  by_cases hi : i < getVisibleNodeCount T
  · have hlen : i < (forestRecords f T).length := by
      rw [forestRecords_length]; exact hi
    have hget : (forestRecords f T)[i]? = some ((forestRecords f T)[i]) :=
      List.getElem?_eq_getElem hlen
    have hfound := atIndexP_found f T i ((forestRecords f T)[i]) hget
    rw [hfound] at hr
    obtain rfl : r = ⟨((forestRecords f T)[i]).node,
        ((forestRecords f T)[i]).lowerSiblingCounts,
        ((forestRecords f T)[i]).path⟩ := by
      exact (Option.some.injEq _ _ ▸ hr).symm
    obtain ⟨k0, restP, ks, x, a, hpath, hmem, hkey, hlook⟩ :=
      lookupList_of_visRecord f T 0 i ((forestRecords f T)[i]) hU.1 hU.2 hget
    obtain ⟨p, ks', rfl⟩ := lookupList_found_cons f T 0 k0 restP _ _ ks hlook
    obtain ⟨ch, hchp, hv⟩ := lookupList_ksValid f T 0 k0 restP _ _ p ks' hlook
    obtain ⟨cc', hshared, ⟨y, hy⟩, hrb⟩ :=
      rebuildKsList_pnode_shared nd (Node.mk 0 none (some T)) T p ks' ch hchp hv
    obtain ⟨kp, hklen, hkoff⟩ := sharedOutsideEdit_offPath T cc' hshared
    refine ⟨cc', kp, ?_, hshared, hklen, hkoff⟩
    unfold changeP
    simp only []
    rw [hpath]
    rw [changeNodeAtPath_char f (.value (.pnode nd)) T k0 restP () hU]
    rw [hlook]
    dsimp only [applyNewNode]
    rw [hrb]
    rfl
  · rw [atIndexP_miss f T i (by omega)] at hr
    exact absurd hr (by simp)

/-- Sibling-key uniqueness for the two-leaf tree `[{1}, {4}]` with payload
keys. -/
theorem keysUniq_twoLeaves :
    KeysUniqF (fun n (_ : Int) => n.payload)
      [Node.mk 1 none none, Node.mk 4 none none] := by
  constructor
  · refine List.pairwise_cons.mpr ⟨?_, List.pairwise_cons.mpr ⟨?_, List.Pairwise.nil⟩⟩
    · intro y hy a b
      simp at hy
      subst hy
      simp [Node.payload]
    · intro y hy
      simp at hy
  · exact ⟨trivial, trivial, trivial⟩

/-- Witness for C3: on the two-leaf tree, path `[7]` matches no node and the
mutation throws `noNode`; path `[4, 9]` continues past the childless `{4}`
and throws `childless`. -/
theorem changeNodeAtPath_hard_failures_witness :
    KeysUniqF (fun n (_ : Int) => n.payload)
      [Node.mk 1 none none, Node.mk 4 none none] ∧
    ((lookupList (fun n (_ : Int) => n.payload)
        [Node.mk 1 none none, Node.mk 4 none none] 0 7 [] = .missing →
      changeNodeAtPath (pureKey (fun n (_ : Int) => n.payload)) (.value .pnull)
        [Node.mk 1 none none, Node.mk 4 none none] [7] true () =
        ((), .error .noNode)) ∧
     (lookupList (fun n (_ : Int) => n.payload)
        [Node.mk 1 none none, Node.mk 4 none none] 0 7 [] = .structErr →
      changeNodeAtPath (pureKey (fun n (_ : Int) => n.payload)) (.value .pnull)
        [Node.mk 1 none none, Node.mk 4 none none] [7] true () =
        ((), .error .childless)) ∧
     removeNodeAtPath (pureKey (fun n (_ : Int) => n.payload))
        [Node.mk 1 none none, Node.mk 4 none none] [7] true () =
      changeNodeAtPath (pureKey (fun n (_ : Int) => n.payload)) (.value .pnull)
        [Node.mk 1 none none, Node.mk 4 none none] [7] true ()) :=
  ⟨keysUniq_twoLeaves,
    changeNodeAtPath_hard_failures (fun n (_ : Int) => n.payload) (.value .pnull)
      [Node.mk 1 none none, Node.mk 4 none none] 7 [] () keysUniq_twoLeaves⟩

/-- Witness for C10: on the two-leaf tree the path `[1]` exists (the lookup
finds node `{1}` at index 0), yet a producer returning `'RESULT_MISS'` makes
`changeNodeAtPath` throw `'No node found at the given path.'`. -/
theorem resultMiss_sentinel_collision_witness :
    (KeysUniqF (fun n (_ : Int) => n.payload)
        [Node.mk 1 none none, Node.mk 4 none none] ∧
     lookupList (fun n (_ : Int) => n.payload)
        [Node.mk 1 none none, Node.mk 4 none none] 0 1 [] =
        .found (Node.mk 1 none none) 0 [0]) ∧
    changeNodeAtPath (pureKey (fun n (_ : Int) => n.payload))
      (.fn (fun s' _ _ => (s', .pmiss)))
      [Node.mk 1 none none, Node.mk 4 none none] [1] true () =
      ((), .error .noNode) :=
  ⟨⟨keysUniq_twoLeaves, rfl⟩,
    resultMiss_sentinel_collision (fun n (_ : Int) => n.payload)
      [Node.mk 1 none none, Node.mk 4 none none] 1 [] ()
      (Node.mk 1 none none) 0 [0] keysUniq_twoLeaves rfl⟩

/-- Sibling-key uniqueness for the spec §8 example tree with payload keys. -/
theorem keysUniq_exampleTree :
    KeysUniqF (fun n (_ : Int) => n.payload)
      [Node.mk 1 (some true) (some [Node.mk 2 none none, Node.mk 3 none none]),
       Node.mk 4 none none] := by
  constructor
  · refine List.pairwise_cons.mpr ⟨?_, List.pairwise_cons.mpr ⟨?_, List.Pairwise.nil⟩⟩
    · intro y hy a b
      simp at hy
      subst hy
      simp [Node.payload]
    · intro y hy
      simp at hy
  · refine ⟨⟨?_, ?_⟩, ⟨trivial, trivial⟩⟩
    · refine List.pairwise_cons.mpr ⟨?_, List.pairwise_cons.mpr ⟨?_, List.Pairwise.nil⟩⟩
      · intro y hy a b
        simp at hy
        subst hy
        simp [Node.payload]
      · intro y hy
        simp at hy
    · exact ⟨trivial, trivial, trivial⟩

/-- Witness for C6 on the spec §8 example tree: replacing the node at the
path of visible index 2 keeps the off-path root `{4}` and sibling `{2}`
shared. -/
theorem changeNodeAtPath_structuralSharing_witness :
    (KeysUniqF (fun n (_ : Int) => n.payload)
        [Node.mk 1 (some true) (some [Node.mk 2 none none, Node.mk 3 none none]),
         Node.mk 4 none none] ∧
     atIndexP (fun n (_ : Int) => n.payload)
        [Node.mk 1 (some true) (some [Node.mk 2 none none, Node.mk 3 none none]),
         Node.mk 4 none none] 2 = some ⟨Node.mk 3 none none, [1, 0], [1, 3]⟩) ∧
    (∃ T' : List Node, ∃ kp : Nat,
      changeP (fun n (_ : Int) => n.payload) (.value (.pnode (Node.mk 9 none none)))
        [Node.mk 1 (some true) (some [Node.mk 2 none none, Node.mk 3 none none]),
         Node.mk 4 none none] [1, 3] = .ok (some T') ∧
      SharedOutsideEdit
        [Node.mk 1 (some true) (some [Node.mk 2 none none, Node.mk 3 none none]),
         Node.mk 4 none none] T' ∧
      T'.length =
        ([Node.mk 1 (some true) (some [Node.mk 2 none none, Node.mk 3 none none]),
          Node.mk 4 none none] : List Node).length ∧
      ∀ j : Nat, j ≠ kp → T'[j]? =
        ([Node.mk 1 (some true) (some [Node.mk 2 none none, Node.mk 3 none none]),
          Node.mk 4 none none] : List Node)[j]?) :=
  ⟨⟨keysUniq_exampleTree, rfl⟩,
    changeNodeAtPath_structuralSharing (fun n (_ : Int) => n.payload)
      [Node.mk 1 (some true) (some [Node.mk 2 none none, Node.mk 3 none none]),
       Node.mk 4 none none] 2 ⟨Node.mk 3 none none, [1, 0], [1, 3]⟩
      (Node.mk 9 none none) keysUniq_exampleTree rfl⟩
